import Mathlib

/-!
# CPUSoliditySHA3Solver: the CPU nonce scanner

A shallow embedding of `CPUSoliditySHA3Solver/cpuSolver.cpp`
(`CpuSolver::IslessThan`, `CpuSolver::HashMessage`, `CpuSolver::HashMidState`)
and the properties of its proof-of-work scan.

Conventions of the embedding.
* A `uint8_t` is a `Fin 256`; a byte buffer (`byte32_t`, `message_ut`, the memory
  behind a `uint8_t*`) is a map from byte offset to byte.  A 32-byte array is read
  at offsets `0..31` only.
* A `uint64_t` is a `Nat` below `2 ^ 64`; every addition on it is reduced
  `% 2 ^ 64` as the machine does.
* `Solutions` is the memory behind the `uint64_t*` pointer, a map from index to
  nonce; a store at index `c` is a point update.
* The hash primitive `keccak_256` is external: it is a parameter, a function from
  the `MESSAGE_LENGTH` input bytes to the digest buffer.
-/

namespace CPUSolver

/-! ## Types and constants (`types.h`, `instance.h`) -/

/-- One `uint8_t`. -/
abbrev uint8_t : Type := Fin 256

/-- A byte buffer addressed by offset: `byte32_t` (offsets `0..31`). -/
abbrev byte32_t : Type := Nat → uint8_t

/-- The message buffer `message_ut`, addressed by byte offset (its `byteArray` view). -/
abbrev message_ut : Type := Nat → uint8_t

/-- Modelled from the spec: the constant `UINT256_LENGTH` of `types.h`, a header that is
not among the sources; the spec fixes targets and digests at 32 bytes. -/
def UINT256_LENGTH : Nat := 32

/-- Modelled from the spec: the constant `UINT64_LENGTH` of `types.h`, a header that is
not among the sources; the spec fixes a nonce at 64 bits, that is 8 bytes. -/
def UINT64_LENGTH : Nat := 8

/-- The number of `uint64_t` values, `2 ^ 64`. -/
def UINT64_RANGE : Nat := 2 ^ 64

/-- The constants and the field offset of `types.h` whose values neither the sources nor
the spec give; the scanner is parametric in them.  `solutionOffset` is the byte offset of
the field `structure.solution` inside `message_ut`.  The copies of the source stay inside
their buffers when `ADDRESS_LENGTH + UINT64_LENGTH ≤ UINT256_LENGTH` and
`solutionOffset + UINT256_LENGTH ≤ MESSAGE_LENGTH`; no property below depends on it. -/
structure Layout where
  MESSAGE_LENGTH : Nat
  ADDRESS_LENGTH : Nat
  SPONGE_LENGTH : Nat
  solutionOffset : Nat

/-- The per-device work descriptor `Instance` (`instance.h`), with the fields the scanner
reads and writes.  `High64Target` is the value behind the pointer of that name, `MidState`
the `uint64_t` words behind the `MidState` pointer. -/
structure Instance where
  Message : message_ut
  Target : byte32_t
  SolutionTemplate : byte32_t
  MidState : Nat → Nat
  High64Target : Nat
  Solutions : Nat → Nat
  SolutionCount : Nat
  MaxSolutionCount : Nat

/-- The per-worker assignment `Processor` (`instance.h`): two `uint64_t` fields. -/
structure Processor where
  WorkPosition : Nat
  WorkSize : Nat

/-! ## Primitive operations -/

/-- The copy `std::memcpy(&dst[off], src, n)`: bytes `off .. off+n-1` of `dst` become bytes
`0 .. n-1` of `src`, every other byte of `dst` is kept. -/
def memcpy {α : Type} (dst : Nat → α) (off : Nat) (src : Nat → α) (n : Nat) : Nat → α :=
  fun j => if off ≤ j ∧ j < off + n then src (j - off) else dst j

/-- The object representation of a `uint64_t` (the bytes behind `&i`) on the
little-endian hosts the solver is built for: byte `j` is `(i / 256 ^ j) % 256`. -/
def uint64Bytes (i : Nat) : Nat → uint8_t :=
  fun j => Fin.ofNat (i / 256 ^ j)

/-- A local array before its first write. -/
def uninitialized : Nat → uint8_t := fun _ => 0

/-- The loop `for (uint64_t i = start; i < endWorkPosition; ++i) body(i)`.
`endWorkPosition` is a `uint64_t`, so the bound that is compared is its value
`% 2 ^ 64`; `++i` is `(i + 1) % 2 ^ 64`. -/
def forUInt64 {σ : Type} (endWorkPosition : Nat) (body : Nat → σ → σ) (i : Nat) (s : σ) : σ :=
  if i < endWorkPosition % UINT64_RANGE then
    forUInt64 endWorkPosition body ((i + 1) % UINT64_RANGE) (body i s)
  else s
termination_by endWorkPosition % UINT64_RANGE - i
decreasing_by
  rename_i h
  have hlt : endWorkPosition % UINT64_RANGE < UINT64_RANGE := Nat.mod_lt _ (by decide)
  have hi : (i + 1) % UINT64_RANGE = i + 1 := Nat.mod_eq_of_lt (by omega)
  rw [hi]
  omega

/-! ## `CpuSolver::IslessThan` -/

/-- The loop of `IslessThan`, entered at index `i` (a `uint32_t`, `++i` is
`(i + 1) % 2 ^ 32`). -/
def IslessThan.loop (left right : byte32_t) (i : Nat) : Bool :=
  if i < UINT256_LENGTH then
    if left i < right i then true
    else if left i > right i then false
    else IslessThan.loop left right ((i + 1) % 2 ^ 32)
  else false
termination_by UINT256_LENGTH - i
decreasing_by
  rename_i h _ _
  have h32 : i < 32 := h
  have hi : (i + 1) % 2 ^ 32 = i + 1 := Nat.mod_eq_of_lt (by omega)
  rw [hi]
  simp only [UINT256_LENGTH]
  omega

/-- The comparator `bool CpuSolver::IslessThan(byte32_t &left, byte32_t &right)`. -/
def IslessThan (left right : byte32_t) : Bool :=
  IslessThan.loop left right 0

/-! ## `CpuSolver::HashMessage` -/

/-- The variables of `HashMessage` that live across loop iterations. -/
structure HashMessageState where
  currentSolution : byte32_t
  currentMessage : message_ut
  deviceInstance : Instance

/-- One iteration of the loop of `HashMessage`, for the nonce `i`. -/
def HashMessage.body (L : Layout) (keccak_256 : List uint8_t → byte32_t)
    (currentTarget : byte32_t) (maxSolutionCount : Nat) (i : Nat)
    (st : HashMessageState) : HashMessageState :=
  let currentSolution := memcpy st.currentSolution L.ADDRESS_LENGTH (uint64Bytes i) UINT64_LENGTH
  let currentMessage := memcpy st.currentMessage L.solutionOffset currentSolution UINT256_LENGTH
  let digest := keccak_256 ((List.range L.MESSAGE_LENGTH).map currentMessage)
  if IslessThan digest currentTarget then
    if st.deviceInstance.SolutionCount < maxSolutionCount then
      { currentSolution := currentSolution
        currentMessage := currentMessage
        deviceInstance :=
          { st.deviceInstance with
            Solutions := fun j =>
              if j = st.deviceInstance.SolutionCount then i else st.deviceInstance.Solutions j
            SolutionCount := st.deviceInstance.SolutionCount + 1 } }
    else
      { currentSolution := currentSolution
        currentMessage := currentMessage
        deviceInstance := st.deviceInstance }
  else
    { currentSolution := currentSolution
      currentMessage := currentMessage
      deviceInstance := st.deviceInstance }

/-- The full-hash scan
`void CpuSolver::HashMessage(Instance *deviceInstance, Processor *processor)`;
the result is the descriptor as the call leaves it. -/
def HashMessage (L : Layout) (keccak_256 : List uint8_t → byte32_t)
    (deviceInstance : Instance) (processor : Processor) : Instance :=
  let currentMessage := memcpy uninitialized 0 deviceInstance.Message L.MESSAGE_LENGTH
  let currentTarget := memcpy uninitialized 0 deviceInstance.Target UINT256_LENGTH
  let currentSolution := memcpy uninitialized 0 deviceInstance.SolutionTemplate UINT256_LENGTH
  let endWorkPosition := (processor.WorkPosition + processor.WorkSize) % UINT64_RANGE
  let maxSolutionCount := deviceInstance.MaxSolutionCount
  (forUInt64 endWorkPosition
      (HashMessage.body L keccak_256 currentTarget maxSolutionCount)
      processor.WorkPosition
      { currentSolution := currentSolution
        currentMessage := currentMessage
        deviceInstance := deviceInstance }).deviceInstance

/-! ## `CpuSolver::HashMidState` -/

/-- The midstate scan
`void CpuSolver::HashMidState(Instance *deviceInstance, Processor *processor)`.
The callee `sha3_midstate` (`sha3/sha3-midstate.h`) is a parameter: it receives the
private midstate copy, the truncated target, the nonce and the capacity, and may update
`SolutionCount` and `Solutions` through the two pointers it is handed. -/
def HashMidState (L : Layout)
    (sha3_midstate : (Nat → Nat) → Nat → Nat → Nat → Nat × (Nat → Nat) → Nat × (Nat → Nat))
    (deviceInstance : Instance) (processor : Processor) : Instance :=
  let endWorkPosition := (processor.WorkPosition + processor.WorkSize) % UINT64_RANGE
  let currentHigh64Target := deviceInstance.High64Target
  let maxSolutionCount := deviceInstance.MaxSolutionCount
  let currentMidState : Nat → Nat :=
    memcpy (fun _ => 0) 0 deviceInstance.MidState (L.SPONGE_LENGTH / UINT64_LENGTH)
  forUInt64 endWorkPosition
    (fun currentWorkPosition (inst : Instance) =>
      let r := sha3_midstate currentMidState currentHigh64Target currentWorkPosition
        maxSolutionCount (inst.SolutionCount, inst.Solutions)
      { inst with SolutionCount := r.1, Solutions := r.2 })
    processor.WorkPosition deviceInstance

/-! ## Specification-side notions -/

/-- The value of a 32-byte array read as a big-endian unsigned 256-bit integer:
byte `0` is the most significant, `Σ a[i] * 256 ^ (31 - i)`. -/
def beValue (a : byte32_t) : Nat :=
  ∑ i in Finset.range 32, (a i).val * 256 ^ (31 - i)

/-- The big-endian value of the `n` bytes `a[i], ..., a[i+n-1]`. -/
def beFrom (a : byte32_t) (i : Nat) : Nat → Nat
  | 0 => 0
  | n + 1 => (a i).val * 256 ^ n + beFrom a (i + 1) n

/-- The private solution buffer `HashMessage` holds when it hashes nonce `n`: the copy of
`SolutionTemplate` with the eight bytes of `n` written at `ADDRESS_LENGTH`
(source lines 86 and 93). -/
def candidateSolution (L : Layout) (inst : Instance) (n : Nat) : byte32_t :=
  memcpy (memcpy uninitialized 0 inst.SolutionTemplate UINT256_LENGTH)
    L.ADDRESS_LENGTH (uint64Bytes n) UINT64_LENGTH

/-- The private message buffer `HashMessage` hashes for nonce `n`: the copy of `Message`
with the solution buffer spliced into its solution field (source lines 84 and 94). -/
def candidateMessage (L : Layout) (inst : Instance) (n : Nat) : message_ut :=
  memcpy (memcpy uninitialized 0 inst.Message L.MESSAGE_LENGTH)
    L.solutionOffset (candidateSolution L inst n) UINT256_LENGTH

/-- The digest of nonce `n` under the descriptor's templates (source line 96). -/
def digestOf (L : Layout) (keccak_256 : List uint8_t → byte32_t) (inst : Instance)
    (n : Nat) : byte32_t :=
  keccak_256 ((List.range L.MESSAGE_LENGTH).map (candidateMessage L inst n))

/-- Nonce `n` qualifies: its digest is numerically below `Target`, both read as
big-endian 256-bit integers. -/
def qualifies (L : Layout) (keccak_256 : List uint8_t → byte32_t) (inst : Instance)
    (n : Nat) : Bool :=
  decide (beValue (digestOf L keccak_256 inst n) < beValue inst.Target)

/-- The qualifying nonces of `[p, p + k)`, in ascending order. -/
def qualifying (L : Layout) (keccak_256 : List uint8_t → byte32_t) (inst : Instance)
    (p k : Nat) : List Nat :=
  (List.range' p k).filter (qualifies L keccak_256 inst)

/-- The recording rule (source lines 98 to 105) for a nonce `n` that passes the test `q`,
against the capacity `maxSolutionCount` read before the loop. -/
def recordStep (q : Nat → Bool) (maxSolutionCount : Nat) (inst : Instance) (n : Nat) :
    Instance :=
  if q n then
    if inst.SolutionCount < maxSolutionCount then
      { inst with
        Solutions := fun j => if j = inst.SolutionCount then n else inst.Solutions j
        SolutionCount := inst.SolutionCount + 1 }
    else inst
  else inst

/-- The private buffers of `HashMessage` agree with the freshly copied templates outside
the bytes that every iteration overwrites. -/
def Coherent (L : Layout) (inst0 : Instance) (st : HashMessageState) : Prop :=
  (∀ x : Nat → uint8_t,
      memcpy st.currentSolution L.ADDRESS_LENGTH x UINT64_LENGTH
        = memcpy (memcpy uninitialized 0 inst0.SolutionTemplate UINT256_LENGTH)
            L.ADDRESS_LENGTH x UINT64_LENGTH) ∧
  (∀ x : Nat → uint8_t,
      memcpy st.currentMessage L.solutionOffset x UINT256_LENGTH
        = memcpy (memcpy uninitialized 0 inst0.Message L.MESSAGE_LENGTH)
            L.solutionOffset x UINT256_LENGTH)

/-- The high 64 bits of a digest: its first eight bytes read big-endian. -/
def high64 (d : byte32_t) : Nat :=
  ∑ i in Finset.range 8, (d i).val * 256 ^ (7 - i)

/-- Modelled from the spec: the callee `sha3_midstate` of `sha3/sha3-midstate.h`, a file of
the repository that is not among the sources.  By section 6 it is handed the midstate, the
truncated target, the nonce, the capacity, the count and the result buffer, and performs
the per-nonce absorb, compare and record of section 4.2: the sponge is resumed from the
midstate to give the digest of the nonce (`resume`, the external primitive), the high 64
bits of the digest are compared with the truncated target, only a value at or below it
proceeds, and the recording rule is the one shared with full-hash mode.  The 256-bit
`Target` is not among the arguments `HashMidState` passes, so the truncated comparison is
the test the callee makes. -/
def sha3_midstate (resume : (Nat → Nat) → Nat → byte32_t) (midState : Nat → Nat)
    (high64Target nonce maxSolutionCount : Nat) (r : Nat × (Nat → Nat)) :
    Nat × (Nat → Nat) :=
  let digest := resume midState nonce
  if high64 digest ≤ high64Target then
    if r.1 < maxSolutionCount then
      (r.1 + 1, fun j => if j = r.1 then nonce else r.2 j)
    else r
  else r

/-! ## Concrete inputs -/

/-- The layout of the 84-byte message of the solver: a 32-byte challenge, a 20-byte
address and the 32-byte solution at offset 52; a 200-byte sponge. -/
def sampleLayout : Layout :=
  { MESSAGE_LENGTH := 84, ADDRESS_LENGTH := 20, SPONGE_LENGTH := 200, solutionOffset := 52 }

/-- The buffer whose every byte is `b`. -/
def allBytes (b : uint8_t) : Nat → uint8_t := fun _ => b

/-- A stand-in for the hash primitive that returns the digest `d` on every input. -/
def constHash (d : byte32_t) : List uint8_t → byte32_t := fun _ => d

/-- A descriptor with zeroed templates, the given target, count and capacity, and an
all-zero `Solutions` buffer. -/
def sampleInstance (target : byte32_t) (count capacity : Nat) : Instance :=
  { Message := allBytes 0
    Target := target
    SolutionTemplate := allBytes 0
    MidState := fun _ => 0
    High64Target := 0
    Solutions := fun _ => 0
    SolutionCount := count
    MaxSolutionCount := capacity }

/-- The 32-byte value `2 ^ 192`: byte `7` is `1`, every other byte is `0`; its high 64
bits are `1` and its low 192 bits are `0`. -/
def highOne : byte32_t := fun i => if i = 7 then 1 else 0

/-! ## Several workers on one descriptor -/

/-- Where a worker stands among the statements of one iteration of the loop of
`HashMessage`: at the loop head (before line 91), past the capacity check of line 100,
or past the store of line 102. -/
inductive WorkerPc where
  | loopHead
  | checked
  | stored
  deriving DecidableEq

/-- One worker running `HashMessage`: its loop variable `i`, its end position and the
statement it is to run next. -/
structure Worker where
  i : Nat
  endWorkPosition : Nat
  pc : WorkerPc

/-- One statement-level step of a worker on the shared descriptor.  `q i` is the outcome
of lines 93 to 98 for nonce `i`, which touch the private buffers of the worker only, and
`maxSolutionCount` the private copy of line 89.  At the loop head the worker tests the
loop condition, hashes and runs the check of line 100; past the check it runs the store of
line 102, which reads `SolutionCount` again; past the store it runs the increment of
line 103 and `++i`.  A worker whose loop has ended does nothing. -/
def workerStep (q : Nat → Bool) (maxSolutionCount : Nat) (w : Worker) (inst : Instance) :
    Worker × Instance :=
  match w.pc with
  | WorkerPc.loopHead =>
    if w.i < w.endWorkPosition % UINT64_RANGE then
      if q w.i then
        if inst.SolutionCount < maxSolutionCount then
          ({ w with pc := WorkerPc.checked }, inst)
        else ({ w with i := (w.i + 1) % UINT64_RANGE }, inst)
      else ({ w with i := (w.i + 1) % UINT64_RANGE }, inst)
    else (w, inst)
  | WorkerPc.checked =>
    ({ w with pc := WorkerPc.stored },
     { inst with
       Solutions := fun j => if j = inst.SolutionCount then w.i else inst.Solutions j })
  | WorkerPc.stored =>
    ({ w with i := (w.i + 1) % UINT64_RANGE, pc := WorkerPc.loopHead },
     { inst with SolutionCount := inst.SolutionCount + 1 })

/-- One whole iteration of a worker run without interruption: from the loop head, the
check and, when it passes, the store and the increment. -/
def workerIteration (q : Nat → Bool) (maxSolutionCount : Nat) (w : Worker)
    (inst : Instance) : Worker × Instance :=
  let r1 := workerStep q maxSolutionCount w inst
  match r1.1.pc with
  | WorkerPc.loopHead => r1
  | _ =>
    let r2 := workerStep q maxSolutionCount r1.1 r1.2
    workerStep q maxSolutionCount r2.1 r2.2

/-- An interleaving: the schedule names, step by step, the worker that moves next; `move`
is what one move of a worker is (a statement, or a whole iteration).  A schedule entry
that names no worker is skipped. -/
def runSchedule (move : Worker → Instance → Worker × Instance) (schedule : List Nat)
    (workers : List Worker) (inst : Instance) : List Worker × Instance :=
  schedule.foldl
    (fun s k =>
      match s.1[k]? with
      | none => s
      | some w => ((s.1.set k (move w s.2).1), (move w s.2).2))
    (workers, inst)

/-- A worker is pending when it has passed the capacity check of line 100 and has not yet
run the increment of line 103. -/
def isPending (w : Worker) : Bool :=
  decide (w.pc ≠ WorkerPc.loopHead)

/-- The number of pending workers. -/
def pendingWorkers (workers : List Worker) : Nat :=
  workers.countP isPending

/-! ## The loops as folds -/

theorem forUInt64_eq_foldl {σ : Type} (e : Nat) (body : Nat → σ → σ) (i : Nat) (s : σ) :
    forUInt64 e body i s
      = (List.range' i (e % UINT64_RANGE - i)).foldl (fun s j => body j s) s := by
  generalize hn : e % UINT64_RANGE - i = n
  induction n generalizing i s with
  | zero =>
    unfold forUInt64
    have : ¬ i < e % UINT64_RANGE := by omega
    simp [this]
  | succ n ih =>
    unfold forUInt64
    have hlt : i < e % UINT64_RANGE := by omega
    have hR : e % UINT64_RANGE < UINT64_RANGE := Nat.mod_lt _ (by decide)
    have hi : (i + 1) % UINT64_RANGE = i + 1 := Nat.mod_eq_of_lt (by omega)
    simp only [hlt, if_true, hi]
    rw [ih (i + 1) (body i s) (by omega)]
    simp [List.range'_succ]

/-! ## The comparator -/

theorem beFrom_lt (a : byte32_t) (i n : Nat) : beFrom a i n < 256 ^ n := by
  induction n generalizing i with
  | zero => simp [beFrom]
  | succ n ih =>
    have h1 := ih (i + 1)
    have h2 : (a i).val < 256 := (a i).isLt
    simp only [beFrom, pow_succ]
    nlinarith

theorem beValue_eq_beFrom (a : byte32_t) : beValue a = beFrom a 0 32 := by
  simp [beValue, beFrom, Finset.sum_range_succ]
  ring

theorem IslessThan_loop_eq (a b : byte32_t) (n i : Nat) (h : i + n = 32) :
    IslessThan.loop a b i = decide (beFrom a i n < beFrom b i n) := by
  induction n generalizing i with
  | zero =>
    unfold IslessThan.loop
    have : ¬ i < UINT256_LENGTH := by simp [UINT256_LENGTH]; omega
    simp [this, beFrom]
  | succ n ih =>
    unfold IslessThan.loop
    have hlt : i < UINT256_LENGTH := by simp [UINT256_LENGTH]; omega
    have hi : (i + 1) % 2 ^ 32 = i + 1 := Nat.mod_eq_of_lt (by omega)
    have ha := beFrom_lt a (i + 1) n
    have hb := beFrom_lt b (i + 1) n
    simp only [hlt, if_true, hi, beFrom, gt_iff_lt]
    by_cases h1 : a i < b i
    · have h1v : (a i).val + 1 ≤ (b i).val := h1
      have : (a i).val * 256 ^ n + beFrom a (i + 1) n < (b i).val * 256 ^ n + beFrom b (i + 1) n := by
        nlinarith
      simp [h1, this]
    · by_cases h2 : b i < a i
      · have h2v : (b i).val + 1 ≤ (a i).val := h2
        have : ¬ (a i).val * 256 ^ n + beFrom a (i + 1) n < (b i).val * 256 ^ n + beFrom b (i + 1) n := by
          nlinarith
        simp [h1, h2, this]
      · have he : a i = b i := le_antisymm (not_lt.mp h2) (not_lt.mp h1)
        simp only [h1, h2, if_false]
        rw [ih (i + 1) (by omega)]
        apply decide_eq_decide.mpr
        rw [he]
        exact (Nat.add_lt_add_iff_left).symm

theorem IslessThan_eq_decide (a b : byte32_t) :
    IslessThan a b = decide (beValue a < beValue b) := by
  rw [beValue_eq_beFrom, beValue_eq_beFrom]
  exact IslessThan_loop_eq a b 32 0 rfl

/-- C1. For every pair of 32-byte arrays `a` and `b`, `IslessThan a b` returns true if and
only if `a < b` when both are read as big-endian unsigned 256-bit integers. -/
theorem IslessThan_iff_lt (a b : byte32_t) :
    IslessThan a b = true ↔ beValue a < beValue b := by
  rw [IslessThan_eq_decide]
  exact decide_eq_true_iff

/-- C10. For every 32-byte array `a`, `IslessThan a a` returns false. -/
theorem IslessThan_self (a : byte32_t) : IslessThan a a = false := by
  rw [IslessThan_eq_decide]
  simp

/-! ## `HashMessage` as a scan of the range -/

theorem memcpy_overwrite {α : Type} (d : Nat → α) (o : Nat) (s x : Nat → α) (n : Nat) :
    memcpy (memcpy d o s n) o x n = memcpy d o x n := by
  funext j
  simp only [memcpy]
  split <;> rfl

theorem beValue_congr (a b : byte32_t) (h : ∀ i, i < 32 → a i = b i) :
    beValue a = beValue b := by
  unfold beValue
  apply Finset.sum_congr rfl
  intro i hi
  rw [h i (Finset.mem_range.mp hi)]

theorem beValue_memcpy (t : byte32_t) :
    beValue (memcpy uninitialized 0 t UINT256_LENGTH) = beValue t := by
  apply beValue_congr
  intro i hi
  simp [memcpy, UINT256_LENGTH, hi]

theorem IslessThan_currentTarget (L : Layout) (K : List uint8_t → byte32_t)
    (inst : Instance) (n : Nat) :
    IslessThan (digestOf L K inst n) (memcpy uninitialized 0 inst.Target UINT256_LENGTH)
      = qualifies L K inst n := by
  rw [IslessThan_eq_decide, beValue_memcpy]
  rfl

theorem body_spec (L : Layout) (K : List uint8_t → byte32_t) (inst0 : Instance)
    (ct : byte32_t) (m i : Nat) (st : HashMessageState) (h : Coherent L inst0 st) :
    Coherent L inst0 (HashMessage.body L K ct m i st) ∧
    (HashMessage.body L K ct m i st).deviceInstance
      = recordStep (fun n => IslessThan (digestOf L K inst0 n) ct) m st.deviceInstance i := by
  have e1 : memcpy st.currentSolution L.ADDRESS_LENGTH (uint64Bytes i) UINT64_LENGTH
      = candidateSolution L inst0 i := h.1 _
  have e2 : memcpy st.currentMessage L.solutionOffset (candidateSolution L inst0 i)
      UINT256_LENGTH = candidateMessage L inst0 i := h.2 _
  have hc : ∀ d : Instance, Coherent L inst0
      { currentSolution := candidateSolution L inst0 i
        currentMessage := candidateMessage L inst0 i
        deviceInstance := d } := by
    intro d
    constructor
    · intro x
      exact memcpy_overwrite _ _ _ _ _
    · intro x
      exact memcpy_overwrite _ _ _ _ _
  unfold HashMessage.body recordStep
  simp only [e1, e2]
  have hd : K ((List.range L.MESSAGE_LENGTH).map (candidateMessage L inst0 i))
      = digestOf L K inst0 i := rfl
  rw [hd]
  split_ifs <;> exact ⟨hc _, rfl⟩

theorem foldl_body_spec (L : Layout) (K : List uint8_t → byte32_t) (inst0 : Instance)
    (ct : byte32_t) (m : Nat) (l : List Nat) (st : HashMessageState)
    (h : Coherent L inst0 st) :
    (l.foldl (fun s j => HashMessage.body L K ct m j s) st).deviceInstance
      = l.foldl (recordStep (fun n => IslessThan (digestOf L K inst0 n) ct) m)
          st.deviceInstance := by
  induction l generalizing st with
  | nil => rfl
  | cons a l ih =>
    simp only [List.foldl_cons]
    rw [ih _ (body_spec L K inst0 ct m a st h).1, (body_spec L K inst0 ct m a st h).2]

/-- The call `HashMessage` is the recording rule folded over the nonces
`WorkPosition, WorkPosition + 1, ...` below the wrapped end position. -/
theorem HashMessage_eq_scan (L : Layout) (K : List uint8_t → byte32_t) (inst : Instance)
    (proc : Processor) :
    HashMessage L K inst proc
      = (List.range' proc.WorkPosition
          ((proc.WorkPosition + proc.WorkSize) % UINT64_RANGE - proc.WorkPosition)).foldl
          (recordStep (qualifies L K inst) inst.MaxSolutionCount) inst := by
  have hq : (fun n => IslessThan (digestOf L K inst n)
      (memcpy uninitialized 0 inst.Target UINT256_LENGTH)) = qualifies L K inst :=
    funext (IslessThan_currentTarget L K inst)
  have hc : Coherent L inst
      { currentSolution := memcpy uninitialized 0 inst.SolutionTemplate UINT256_LENGTH
        currentMessage := memcpy uninitialized 0 inst.Message L.MESSAGE_LENGTH
        deviceInstance := inst } := ⟨fun _ => rfl, fun _ => rfl⟩
  unfold HashMessage
  simp only []
  rw [forUInt64_eq_foldl, foldl_body_spec L K inst _ _ _ _ hc, hq, Nat.mod_mod]

/-- With no wrap-around of the end position the scanned nonces are `[p, p + k)`. -/
theorem HashMessage_eq_scan_range (L : Layout) (K : List uint8_t → byte32_t)
    (inst : Instance) (proc : Processor)
    (h : proc.WorkPosition + proc.WorkSize < UINT64_RANGE) :
    HashMessage L K inst proc
      = (List.range' proc.WorkPosition proc.WorkSize).foldl
          (recordStep (qualifies L K inst) inst.MaxSolutionCount) inst := by
  rw [HashMessage_eq_scan, Nat.mod_eq_of_lt h, Nat.add_sub_cancel_left]

/-! ## The recording rule folded over a list of nonces -/

theorem recordStep_of_false (q : Nat → Bool) (m : Nat) (inst : Instance) (n : Nat)
    (h : q n = false) : recordStep q m inst n = inst := by
  simp [recordStep, h]

theorem recordStep_of_full (q : Nat → Bool) (m : Nat) (inst : Instance) (n : Nat)
    (h : m ≤ inst.SolutionCount) : recordStep q m inst n = inst := by
  have : ¬ inst.SolutionCount < m := by omega
  simp [recordStep, this]

theorem scan_full (q : Nat → Bool) (m : Nat) (l : List Nat) (inst : Instance)
    (h : m ≤ inst.SolutionCount) : l.foldl (recordStep q m) inst = inst := by
  induction l with
  | nil => rfl
  | cons a l ih => rw [List.foldl_cons, recordStep_of_full q m inst a h, ih]

theorem scan_none (q : Nat → Bool) (m : Nat) (l : List Nat) (inst : Instance)
    (h : ∀ n, n ∈ l → q n = false) : l.foldl (recordStep q m) inst = inst := by
  induction l with
  | nil => rfl
  | cons a l ih =>
    rw [List.foldl_cons, recordStep_of_false q m inst a (h a (List.mem_cons_self a l))]
    exact ih (fun n hn => h n (List.mem_cons_of_mem a hn))

theorem scan_maxSolutionCount (q : Nat → Bool) (m : Nat) (l : List Nat) (inst : Instance) :
    (l.foldl (recordStep q m) inst).MaxSolutionCount = inst.MaxSolutionCount := by
  induction l generalizing inst with
  | nil => rfl
  | cons a l ih =>
    rw [List.foldl_cons, ih]
    unfold recordStep
    split_ifs <;> rfl

/-- The count and the contents of `Solutions` after the recording rule has run over the
nonces of `l`, from a descriptor within capacity. -/
theorem scan_spec (q : Nat → Bool) (m : Nat) (l : List Nat) (inst : Instance)
    (h : inst.SolutionCount ≤ m) :
    (l.foldl (recordStep q m) inst).SolutionCount
        = min (inst.SolutionCount + (l.filter q).length) m ∧
    ∀ j, (l.foldl (recordStep q m) inst).Solutions j
        = if inst.SolutionCount ≤ j ∧ j < min (inst.SolutionCount + (l.filter q).length) m
          then (l.filter q).getD (j - inst.SolutionCount) 0
          else inst.Solutions j := by
  induction l generalizing inst with
  | nil =>
    refine ⟨by simp; omega, fun j => ?_⟩
    have : ¬ (inst.SolutionCount ≤ j ∧
        j < min (inst.SolutionCount + (List.filter q []).length) m) := by
      simp only [List.filter_nil, List.length_nil]
      omega
    rw [if_neg this, List.foldl_nil]
  | cons a l ih =>
    rw [List.foldl_cons]
    by_cases hq : q a = true
    · by_cases hc : inst.SolutionCount < m
      · have hstep : recordStep q m inst a =
            { inst with
              Solutions := fun j => if j = inst.SolutionCount then a else inst.Solutions j
              SolutionCount := inst.SolutionCount + 1 } := by
          simp [recordStep, hq, hc]
        rw [hstep]
        obtain ⟨ih1, ih2⟩ := ih
          { inst with
            Solutions := fun j => if j = inst.SolutionCount then a else inst.Solutions j
            SolutionCount := inst.SolutionCount + 1 } hc
        simp only [List.filter_cons_of_pos hq, List.length_cons] at ih1 ih2 ⊢
        refine ⟨by rw [ih1]; congr 1; omega, fun j => ?_⟩
        rw [ih2 j]
        have e : inst.SolutionCount + 1 + (List.filter q l).length
            = inst.SolutionCount + ((List.filter q l).length + 1) := by omega
        rw [e]
        by_cases hj : j = inst.SolutionCount
        · subst hj
          have h1 : ¬ (inst.SolutionCount + 1 ≤ inst.SolutionCount ∧ inst.SolutionCount
              < min (inst.SolutionCount + ((List.filter q l).length + 1)) m) := by omega
          have h2 : inst.SolutionCount ≤ inst.SolutionCount ∧ inst.SolutionCount
              < min (inst.SolutionCount + ((List.filter q l).length + 1)) m := by omega
          simp [h1, h2]
        · by_cases hlt : inst.SolutionCount + 1 ≤ j ∧
              j < min (inst.SolutionCount + ((List.filter q l).length + 1)) m
          · have h2 : inst.SolutionCount ≤ j ∧
                j < min (inst.SolutionCount + ((List.filter q l).length + 1)) m := by omega
            have e2 : j - inst.SolutionCount = (j - (inst.SolutionCount + 1)) + 1 := by omega
            rw [if_pos hlt, if_pos h2, e2, List.getD_cons_succ]
          · have h2 : ¬ (inst.SolutionCount ≤ j ∧
                j < min (inst.SolutionCount + ((List.filter q l).length + 1)) m) := by omega
            rw [if_neg hlt, if_neg h2]
            simp [hj]
      · have hfull : m ≤ inst.SolutionCount := by omega
        rw [recordStep_of_full q m inst a hfull, scan_full q m l inst hfull]
        refine ⟨by omega, fun j => ?_⟩
        have : ¬ (inst.SolutionCount ≤ j ∧
            j < min (inst.SolutionCount + ((a :: l).filter q).length) m) := by omega
        rw [if_neg this]
    · have hq2 : q a = false := by simpa using hq
      rw [recordStep_of_false q m inst a hq2, List.filter_cons_of_neg hq]
      exact ih inst h

/-! ## Facts used by the scan properties -/

theorem map_range_getD (l : List Nat) :
    (List.range l.length).map (fun j => l.getD j 0) = l := by
  apply List.ext_getElem
  · simp
  · intro i h1 h2
    simp [List.getD_eq_getElem?_getD, List.getElem?_eq_getElem h2]

theorem map_range_take_getD (l : List Nat) (m : Nat) (h : m ≤ l.length) :
    (List.range m).map (fun j => l.getD j 0) = l.take m := by
  apply List.ext_getElem
  · simp [h]
  · intro i h1 h2
    have hi : i < l.length := by
      simp at h1
      omega
    simp [List.getD_eq_getElem?_getD, List.getElem?_eq_getElem hi]

theorem beValue_allBytes_zero : beValue (allBytes 0) = 0 := by
  simp [beValue, allBytes]

theorem beValue_target_zero (t : byte32_t) (h : ∀ i, i < 32 → t i = 0) : beValue t = 0 := by
  rw [beValue_congr t (allBytes 0) h, beValue_allBytes_zero]

theorem beValue_lt_of_target_max (d t : byte32_t) (ht : ∀ i, i < 32 → t i = 255)
    (hd : ∃ i, i < 32 ∧ d i ≠ 255) : beValue d < beValue t := by
  unfold beValue
  obtain ⟨i0, hi0, hne⟩ := hd
  have hle : ∀ i, i < 32 → (d i).val ≤ (t i).val := by
    intro i hi
    rw [ht i hi]
    have := (d i).isLt
    show (d i).val ≤ 255
    omega
  apply Finset.sum_lt_sum
  · intro i hi
    exact Nat.mul_le_mul_right _ (hle i (Finset.mem_range.mp hi))
  · refine ⟨i0, Finset.mem_range.mpr hi0, ?_⟩
    have hlt : (d i0).val < (t i0).val := by
      rw [ht i0 hi0]
      have h1 := (d i0).isLt
      have h2 : (d i0).val ≠ 255 := fun h => hne (Fin.ext h)
      show (d i0).val < 255
      omega
    exact Nat.mul_lt_mul_of_pos_right hlt (by positivity)

theorem wrapped_range_empty (p k : Nat) (h : (p + k) % UINT64_RANGE ≤ p) :
    List.range' p ((p + k) % UINT64_RANGE - p) = [] := by
  rw [Nat.sub_eq_zero_of_le h]
  rfl

theorem qualifies_zero_digest_max_target (L : Layout) (c m n : Nat) :
    qualifies L (constHash (allBytes 0)) (sampleInstance (allBytes 255) c m) n = true := by
  simp only [qualifies, digestOf, constHash, sampleInstance, beValue_allBytes_zero]
  simp [beValue, allBytes, Finset.sum_range_succ]
  decide

theorem qualifying_zero_digest_max_target (L : Layout) (c m p k : Nat) :
    qualifying L (constHash (allBytes 0)) (sampleInstance (allBytes 255) c m) p k
      = List.range' p k := by
  unfold qualifying
  rw [List.filter_eq_self]
  intro n _
  exact qualifies_zero_digest_max_target L c m n

/-! ## Range coverage -/

/-- C2, as stated, fails when the end position wraps: with `WorkPosition = 2 ^ 64 - 1` and
`WorkSize = 1` the nonce `2 ^ 64 - 1` lies in the range and qualifies, the capacity `4`
exceeds the one qualifying nonce, yet `HashMessage` records nothing. -/
theorem HashMessage_wrapped_range_not_scanned :
    qualifies sampleLayout (constHash (allBytes 0)) (sampleInstance (allBytes 255) 0 4)
        (2 ^ 64 - 1) = true ∧
    (qualifying sampleLayout (constHash (allBytes 0)) (sampleInstance (allBytes 255) 0 4)
        (2 ^ 64 - 1) 1).length ≤ 4 ∧
    (HashMessage sampleLayout (constHash (allBytes 0)) (sampleInstance (allBytes 255) 0 4)
        { WorkPosition := 2 ^ 64 - 1, WorkSize := 1 }).SolutionCount = 0 := by
  refine ⟨?_, ?_, ?_⟩
  · simp only [qualifies, digestOf, constHash, sampleInstance, beValue_allBytes_zero]
    simp [beValue, allBytes, Finset.sum_range_succ]
    decide
  · simp only [qualifying, List.range'_one]
    exact le_trans (List.length_filter_le _ _) (by simp)
  · rw [HashMessage_eq_scan, wrapped_range_empty _ _ (by simp [UINT64_RANGE])]
    rfl

/-- C2, amended. For every `p` and `k` with `p + k < 2 ^ 64`, a `HashMessage` run from
`SolutionCount = 0` with `MaxSolutionCount` at least the number of qualifying nonces of
`[p, p + k)` ends with `Solutions[0 .. SolutionCount)` equal to the qualifying nonces of
the range in ascending order: a nonce is recorded iff it lies in `[p, p + k)` and its digest
is below `Target`; if exactly one nonce qualifies, `SolutionCount = 1` and `Solutions[0]`
is that nonce. -/
theorem HashMessage_records_exactly_range (L : Layout) (K : List uint8_t → byte32_t)
    (inst : Instance) (proc : Processor)
    (hov : proc.WorkPosition + proc.WorkSize < UINT64_RANGE)
    (h0 : inst.SolutionCount = 0)
    (hcap : (qualifying L K inst proc.WorkPosition proc.WorkSize).length
              ≤ inst.MaxSolutionCount) :
    (HashMessage L K inst proc).SolutionCount
        = (qualifying L K inst proc.WorkPosition proc.WorkSize).length ∧
    (List.range (HashMessage L K inst proc).SolutionCount).map
        (HashMessage L K inst proc).Solutions
        = qualifying L K inst proc.WorkPosition proc.WorkSize ∧
    (∀ n, (∃ j, j < (HashMessage L K inst proc).SolutionCount ∧
              (HashMessage L K inst proc).Solutions j = n)
          ↔ (proc.WorkPosition ≤ n ∧ n < proc.WorkPosition + proc.WorkSize ∧
              beValue (digestOf L K inst n) < beValue inst.Target)) ∧
    (∀ n, qualifying L K inst proc.WorkPosition proc.WorkSize = [n] →
        (HashMessage L K inst proc).SolutionCount = 1 ∧
        (HashMessage L K inst proc).Solutions 0 = n) := by
  obtain ⟨hc, hs⟩ := scan_spec (qualifies L K inst) inst.MaxSolutionCount
    (List.range' proc.WorkPosition proc.WorkSize) inst (by omega)
  rw [← HashMessage_eq_scan_range L K inst proc hov] at hc hs
  have hql : (List.range' proc.WorkPosition proc.WorkSize).filter (qualifies L K inst)
      = qualifying L K inst proc.WorkPosition proc.WorkSize := rfl
  rw [hql] at hc hs
  rw [h0, Nat.zero_add, Nat.min_eq_left hcap] at hc
  have hs2 : ∀ j, j < (qualifying L K inst proc.WorkPosition proc.WorkSize).length →
      (HashMessage L K inst proc).Solutions j
        = (qualifying L K inst proc.WorkPosition proc.WorkSize).getD j 0 := by
    intro j hj
    rw [hs j, h0, Nat.zero_add, Nat.min_eq_left hcap]
    simp [hj]
  have hmap : (List.range (HashMessage L K inst proc).SolutionCount).map
      (HashMessage L K inst proc).Solutions
      = qualifying L K inst proc.WorkPosition proc.WorkSize := by
    rw [hc]
    conv_rhs => rw [← map_range_getD (qualifying L K inst proc.WorkPosition proc.WorkSize)]
    apply List.map_congr_left
    intro j hj
    exact hs2 j (List.mem_range.mp hj)
  have hmem : ∀ n, n ∈ qualifying L K inst proc.WorkPosition proc.WorkSize ↔
      (proc.WorkPosition ≤ n ∧ n < proc.WorkPosition + proc.WorkSize ∧
        beValue (digestOf L K inst n) < beValue inst.Target) := by
    intro n
    simp [qualifying, qualifies, List.mem_filter, List.mem_range'_1, and_assoc]
  refine ⟨hc, hmap, fun n => ?_, fun n hn => ?_⟩
  · rw [← hmem n, ← hmap, List.mem_map]
    constructor
    · rintro ⟨j, hj, rfl⟩
      exact ⟨j, List.mem_range.mpr hj, rfl⟩
    · rintro ⟨j, hj, rfl⟩
      exact ⟨j, List.mem_range.mp hj, rfl⟩
  · have h1 : (HashMessage L K inst proc).SolutionCount = 1 := by rw [hc, hn]; rfl
    refine ⟨h1, ?_⟩
    rw [hs2 0 (by rw [hn]; simp), hn]
    rfl

/-- The amended C2 at a concrete input: the range `[3, 5)`, an all-zero digest and the
all-`0xFF` target, capacity `4`. -/
theorem HashMessage_records_exactly_range_witness :
    (3 + 2 < UINT64_RANGE ∧
      (sampleInstance (allBytes 255) 0 4).SolutionCount = 0 ∧
      (qualifying sampleLayout (constHash (allBytes 0)) (sampleInstance (allBytes 255) 0 4)
          3 2).length ≤ 4) ∧
    (HashMessage sampleLayout (constHash (allBytes 0)) (sampleInstance (allBytes 255) 0 4)
        { WorkPosition := 3, WorkSize := 2 }).SolutionCount
      = (qualifying sampleLayout (constHash (allBytes 0)) (sampleInstance (allBytes 255) 0 4)
          3 2).length :=
  ⟨⟨by simp [UINT64_RANGE], rfl,
      le_trans (List.length_filter_le _ _) (by simp)⟩,
    (HashMessage_records_exactly_range sampleLayout (constHash (allBytes 0))
      (sampleInstance (allBytes 255) 0 4) { WorkPosition := 3, WorkSize := 2 }
      (by simp [UINT64_RANGE]) rfl
      (le_trans (List.length_filter_le _ _) (by simp [sampleInstance]))).1⟩

/-! ## Capacity -/

/-- C3, as stated, fails when the end position wraps: with capacity `m = 1` the range
`[2 ^ 64 - 2, 2 ^ 64)` holds two qualifying nonces, more than `m`, yet `HashMessage`
returns with `SolutionCount = 0`, not `1`. -/
theorem HashMessage_wrapped_range_below_capacity :
    1 < (qualifying sampleLayout (constHash (allBytes 0)) (sampleInstance (allBytes 255) 0 1)
          (2 ^ 64 - 2) 2).length ∧
    (HashMessage sampleLayout (constHash (allBytes 0)) (sampleInstance (allBytes 255) 0 1)
        { WorkPosition := 2 ^ 64 - 2, WorkSize := 2 }).SolutionCount = 0 := by
  constructor
  · rw [qualifying_zero_digest_max_target]
    simp
  · rw [HashMessage_eq_scan, wrapped_range_empty _ _ (by simp [UINT64_RANGE])]
    rfl

/-- C3, amended. For `MaxSolutionCount = m`, `SolutionCount` initially `0` and a range
`[p, p + k)` with `p + k < 2 ^ 64` that holds more than `m` qualifying nonces, `HashMessage`
ends with `SolutionCount = m` and `Solutions[0 .. m)` equal to the first `m` qualifying
nonces of the range, in ascending order. -/
theorem HashMessage_fills_to_capacity (L : Layout) (K : List uint8_t → byte32_t)
    (inst : Instance) (proc : Processor)
    (hov : proc.WorkPosition + proc.WorkSize < UINT64_RANGE)
    (h0 : inst.SolutionCount = 0)
    (hmore : inst.MaxSolutionCount
              < (qualifying L K inst proc.WorkPosition proc.WorkSize).length) :
    (HashMessage L K inst proc).SolutionCount = inst.MaxSolutionCount ∧
    (List.range inst.MaxSolutionCount).map (HashMessage L K inst proc).Solutions
        = (qualifying L K inst proc.WorkPosition proc.WorkSize).take inst.MaxSolutionCount := by
  obtain ⟨hc, hs⟩ := scan_spec (qualifies L K inst) inst.MaxSolutionCount
    (List.range' proc.WorkPosition proc.WorkSize) inst (by omega)
  rw [← HashMessage_eq_scan_range L K inst proc hov] at hc hs
  have hql : (List.range' proc.WorkPosition proc.WorkSize).filter (qualifies L K inst)
      = qualifying L K inst proc.WorkPosition proc.WorkSize := rfl
  rw [hql] at hc hs
  rw [h0, Nat.zero_add, Nat.min_eq_right (le_of_lt hmore)] at hc
  refine ⟨hc, ?_⟩
  rw [← map_range_take_getD _ _ (le_of_lt hmore)]
  apply List.map_congr_left
  intro j hj
  have hj2 : j < inst.MaxSolutionCount := List.mem_range.mp hj
  rw [hs j, h0, Nat.zero_add, Nat.min_eq_right (le_of_lt hmore)]
  simp [hj2]

/-- The amended C3 at a concrete input: capacity `1`, the range `[3, 5)` with two
qualifying nonces. -/
theorem HashMessage_fills_to_capacity_witness :
    (3 + 2 < UINT64_RANGE ∧
      (sampleInstance (allBytes 255) 0 1).SolutionCount = 0 ∧
      1 < (qualifying sampleLayout (constHash (allBytes 0))
            (sampleInstance (allBytes 255) 0 1) 3 2).length) ∧
    (HashMessage sampleLayout (constHash (allBytes 0)) (sampleInstance (allBytes 255) 0 1)
        { WorkPosition := 3, WorkSize := 2 }).SolutionCount = 1 :=
  ⟨⟨by simp [UINT64_RANGE], rfl, by rw [qualifying_zero_digest_max_target]; simp⟩,
    (HashMessage_fills_to_capacity sampleLayout (constHash (allBytes 0))
      (sampleInstance (allBytes 255) 0 1) { WorkPosition := 3, WorkSize := 2 }
      (by simp [UINT64_RANGE]) rfl
      (by rw [qualifying_zero_digest_max_target]; simp [sampleInstance])).1⟩

/-- C4. `SolutionCount ≤ MaxSolutionCount` is an invariant of the scan: a descriptor that
satisfies it still does when `HashMessage` returns, and every iteration of the loop
preserves it (for any nonce and any loop state, against the capacity read before the
loop), leaving `MaxSolutionCount` as it was. -/
theorem HashMessage_count_le_capacity (L : Layout) (K : List uint8_t → byte32_t)
    (inst : Instance) (proc : Processor)
    (h : inst.SolutionCount ≤ inst.MaxSolutionCount) :
    (HashMessage L K inst proc).SolutionCount ≤ (HashMessage L K inst proc).MaxSolutionCount ∧
    ∀ (currentTarget : byte32_t) (i : Nat) (st : HashMessageState),
      st.deviceInstance.SolutionCount ≤ inst.MaxSolutionCount →
      (HashMessage.body L K currentTarget inst.MaxSolutionCount i st).deviceInstance.SolutionCount
          ≤ inst.MaxSolutionCount ∧
      (HashMessage.body L K currentTarget inst.MaxSolutionCount i st).deviceInstance.MaxSolutionCount
          = st.deviceInstance.MaxSolutionCount := by
  constructor
  · rw [HashMessage_eq_scan, scan_maxSolutionCount,
      (scan_spec (qualifies L K inst) inst.MaxSolutionCount _ inst h).1]
    exact Nat.min_le_right _ _
  · intro ct i st hst
    unfold HashMessage.body
    simp only []
    split_ifs with h1 h2
    · exact ⟨h2, rfl⟩
    · exact ⟨hst, rfl⟩
    · exact ⟨hst, rfl⟩

/-- C4 at a concrete input: a descriptor holding `1` of at most `2` solutions. -/
theorem HashMessage_count_le_capacity_witness :
    (sampleInstance (allBytes 255) 1 2).SolutionCount
        ≤ (sampleInstance (allBytes 255) 1 2).MaxSolutionCount ∧
    (HashMessage sampleLayout (constHash (allBytes 0)) (sampleInstance (allBytes 255) 1 2)
        { WorkPosition := 0, WorkSize := 5 }).SolutionCount
      ≤ (HashMessage sampleLayout (constHash (allBytes 0)) (sampleInstance (allBytes 255) 1 2)
        { WorkPosition := 0, WorkSize := 5 }).MaxSolutionCount :=
  ⟨by simp [sampleInstance],
    (HashMessage_count_le_capacity sampleLayout (constHash (allBytes 0))
      (sampleInstance (allBytes 255) 1 2) { WorkPosition := 0, WorkSize := 5 }
      (by simp [sampleInstance])).1⟩

/-! ## The recording step -/

/-- C5, as stated, fails at the last nonce: for `n = 2 ^ 64 - 1` the one-nonce range
`[n, n + 1)` has a wrapped end position, so with `n` qualifying and
`SolutionCount = 0 < 1 = MaxSolutionCount` the call stores nothing and leaves
`SolutionCount` at `0`. -/
theorem HashMessage_last_nonce_not_recorded :
    qualifies sampleLayout (constHash (allBytes 0)) (sampleInstance (allBytes 255) 0 1)
        (2 ^ 64 - 1) = true ∧
    (sampleInstance (allBytes 255) 0 1).SolutionCount
        < (sampleInstance (allBytes 255) 0 1).MaxSolutionCount ∧
    (HashMessage sampleLayout (constHash (allBytes 0)) (sampleInstance (allBytes 255) 0 1)
        { WorkPosition := 2 ^ 64 - 1, WorkSize := 1 }).SolutionCount = 0 ∧
    (HashMessage sampleLayout (constHash (allBytes 0)) (sampleInstance (allBytes 255) 0 1)
        { WorkPosition := 2 ^ 64 - 1, WorkSize := 1 }).Solutions 0 = 0 := by
  refine ⟨qualifies_zero_digest_max_target _ _ _ _, by simp [sampleInstance], ?_, ?_⟩
  · rw [HashMessage_eq_scan, wrapped_range_empty _ _ (by simp [UINT64_RANGE])]
    rfl
  · rw [HashMessage_eq_scan, wrapped_range_empty _ _ (by simp [UINT64_RANGE])]
    rfl

/-- C5, amended. For a one-nonce range `[n, n + 1)` with `n + 1 < 2 ^ 64` whose nonce
qualifies (digest below `Target`) and a descriptor with `SolutionCount = c <
MaxSolutionCount`, `HashMessage` stores `n` at `Solutions[c]`, sets `SolutionCount` to
`c + 1`, and leaves every other entry of `Solutions` unchanged. -/
theorem HashMessage_records_one (L : Layout) (K : List uint8_t → byte32_t)
    (inst : Instance) (n : Nat)
    (hov : n + 1 < UINT64_RANGE)
    (hq : beValue (digestOf L K inst n) < beValue inst.Target)
    (hc : inst.SolutionCount < inst.MaxSolutionCount) :
    (HashMessage L K inst { WorkPosition := n, WorkSize := 1 }).Solutions inst.SolutionCount = n ∧
    (HashMessage L K inst { WorkPosition := n, WorkSize := 1 }).SolutionCount
        = inst.SolutionCount + 1 ∧
    ∀ j, j ≠ inst.SolutionCount →
      (HashMessage L K inst { WorkPosition := n, WorkSize := 1 }).Solutions j
        = inst.Solutions j := by
  have hq2 : qualifies L K inst n = true := by simp [qualifies, hq]
  rw [HashMessage_eq_scan_range L K inst { WorkPosition := n, WorkSize := 1 } hov]
  simp only [List.range'_one, List.foldl_cons, List.foldl_nil, recordStep, hq2, hc, if_true]
  refine ⟨by simp, trivial, fun j hj => by simp [hj]⟩

/-- The amended C5 at a concrete input: nonce `7`, an empty descriptor of capacity `1`. -/
theorem HashMessage_records_one_witness :
    (7 + 1 < UINT64_RANGE ∧
      beValue (digestOf sampleLayout (constHash (allBytes 0))
          (sampleInstance (allBytes 255) 0 1) 7)
        < beValue (sampleInstance (allBytes 255) 0 1).Target ∧
      (sampleInstance (allBytes 255) 0 1).SolutionCount
        < (sampleInstance (allBytes 255) 0 1).MaxSolutionCount) ∧
    (HashMessage sampleLayout (constHash (allBytes 0)) (sampleInstance (allBytes 255) 0 1)
        { WorkPosition := 7, WorkSize := 1 }).Solutions 0 = 7 :=
  ⟨⟨by simp [UINT64_RANGE],
      by simpa [qualifies] using qualifies_zero_digest_max_target sampleLayout 0 1 7,
      by simp [sampleInstance]⟩,
    (HashMessage_records_one sampleLayout (constHash (allBytes 0))
      (sampleInstance (allBytes 255) 0 1) 7 (by simp [UINT64_RANGE])
      (by simpa [qualifies] using qualifies_zero_digest_max_target sampleLayout 0 1 7)
      (by simp [sampleInstance])).1⟩

/-- C6. Silent drop at capacity: if `SolutionCount` equals `MaxSolutionCount` when
`HashMessage` starts, then for every work assignment, every target and every hash it
returns the descriptor it was given: `SolutionCount` and every entry of `Solutions` are
unchanged.  The call is a total function with no error result. -/
theorem HashMessage_at_capacity_unchanged (L : Layout) (K : List uint8_t → byte32_t)
    (inst : Instance) (proc : Processor)
    (h : inst.SolutionCount = inst.MaxSolutionCount) :
    (HashMessage L K inst proc).SolutionCount = inst.SolutionCount ∧
    (HashMessage L K inst proc).Solutions = inst.Solutions ∧
    HashMessage L K inst proc = inst := by
  have e : HashMessage L K inst proc = inst := by
    rw [HashMessage_eq_scan]
    exact scan_full _ _ _ _ (le_of_eq h.symm)
  rw [e]
  exact ⟨rfl, rfl, rfl⟩

/-- C6 at a concrete input: a full descriptor of capacity `2`, every nonce qualifying. -/
theorem HashMessage_at_capacity_unchanged_witness :
    (sampleInstance (allBytes 255) 2 2).SolutionCount
        = (sampleInstance (allBytes 255) 2 2).MaxSolutionCount ∧
    (HashMessage sampleLayout (constHash (allBytes 0)) (sampleInstance (allBytes 255) 2 2)
        { WorkPosition := 0, WorkSize := 5 }).SolutionCount
      = (sampleInstance (allBytes 255) 2 2).SolutionCount :=
  ⟨rfl,
    (HashMessage_at_capacity_unchanged sampleLayout (constHash (allBytes 0))
      (sampleInstance (allBytes 255) 2 2) { WorkPosition := 0, WorkSize := 5 } rfl).1⟩

/-! ## Extreme targets -/

/-- C8, as stated, fails for the all-`0xFF` digest: it does not compare less than the
all-`0xFF` target, so with a hash returning it `HashMessage` over the one-nonce range
`[0, 1)` with capacity `1` ends with `SolutionCount = 0`, not `min 1 1 = 1`.  It also fails
for a range whose end position wraps: with an all-zero digest and the one-nonce range
`[2 ^ 64 - 1, 2 ^ 64)` the call ends with `SolutionCount = 0` as well. -/
theorem HashMessage_max_digest_rejected :
    IslessThan (allBytes 255) (sampleInstance (allBytes 255) 0 1).Target = false ∧
    (HashMessage sampleLayout (constHash (allBytes 255)) (sampleInstance (allBytes 255) 0 1)
        { WorkPosition := 0, WorkSize := 1 }).SolutionCount = 0 ∧
    (HashMessage sampleLayout (constHash (allBytes 0)) (sampleInstance (allBytes 255) 0 1)
        { WorkPosition := 2 ^ 64 - 1, WorkSize := 1 }).SolutionCount = 0 ∧
    min 1 (sampleInstance (allBytes 255) 0 1).MaxSolutionCount = 1 := by
  refine ⟨?_, ?_, ?_, rfl⟩
  · rw [IslessThan_eq_decide]
    simp [sampleInstance]
  · rw [HashMessage_eq_scan, scan_none]
    · rfl
    · intro n _
      simp [qualifies, digestOf, constHash, sampleInstance]
  · rw [HashMessage_eq_scan, wrapped_range_empty _ _ (by simp [UINT64_RANGE])]
    rfl

/-- C8, amended. With `Target` all `0xFF`, every digest other than the all-`0xFF` one
compares less than the target; so over a range `[p, p + k)` with `p + k < 2 ^ 64` on which
the hash never returns the all-`0xFF` digest, `HashMessage` started from
`SolutionCount = 0` ends with `SolutionCount = min k MaxSolutionCount`. -/
theorem HashMessage_max_target (L : Layout) (K : List uint8_t → byte32_t)
    (inst : Instance) (proc : Processor)
    (hT : ∀ i, i < 32 → inst.Target i = 255)
    (hov : proc.WorkPosition + proc.WorkSize < UINT64_RANGE)
    (h0 : inst.SolutionCount = 0)
    (hd : ∀ n, proc.WorkPosition ≤ n → n < proc.WorkPosition + proc.WorkSize →
            ∃ i, i < 32 ∧ digestOf L K inst n i ≠ 255) :
    (∀ d : byte32_t, (∃ i, i < 32 ∧ d i ≠ 255) → IslessThan d inst.Target = true) ∧
    (HashMessage L K inst proc).SolutionCount = min proc.WorkSize inst.MaxSolutionCount := by
  constructor
  · intro d hdne
    rw [IslessThan_eq_decide]
    exact decide_eq_true (beValue_lt_of_target_max d inst.Target hT hdne)
  · have hall : (List.range' proc.WorkPosition proc.WorkSize).filter (qualifies L K inst)
        = List.range' proc.WorkPosition proc.WorkSize := by
      rw [List.filter_eq_self]
      intro n hn
      rw [List.mem_range'_1] at hn
      exact decide_eq_true (beValue_lt_of_target_max _ inst.Target hT (hd n hn.1 hn.2))
    rw [HashMessage_eq_scan_range L K inst proc hov,
      (scan_spec (qualifies L K inst) inst.MaxSolutionCount _ inst (by omega)).1,
      hall, h0, List.length_range', Nat.zero_add]

/-- The amended C8 at a concrete input: an all-zero digest, the range `[0, 5)`,
capacity `2`. -/
theorem HashMessage_max_target_witness :
    ((∀ i, i < 32 → (sampleInstance (allBytes 255) 0 2).Target i = 255) ∧
      0 + 5 < UINT64_RANGE ∧
      (sampleInstance (allBytes 255) 0 2).SolutionCount = 0) ∧
    (HashMessage sampleLayout (constHash (allBytes 0)) (sampleInstance (allBytes 255) 0 2)
        { WorkPosition := 0, WorkSize := 5 }).SolutionCount = min 5 2 :=
  ⟨⟨fun _ _ => rfl, by simp [UINT64_RANGE], rfl⟩,
    (HashMessage_max_target sampleLayout (constHash (allBytes 0))
      (sampleInstance (allBytes 255) 0 2) { WorkPosition := 0, WorkSize := 5 }
      (fun _ _ => rfl) (by simp [UINT64_RANGE]) rfl
      (fun _ _ _ => ⟨0, by decide, by simp [digestOf, constHash, allBytes]⟩)).2⟩

/-- C9. With `Target` all `0x00`, `IslessThan d Target` is false for every digest `d`, so
`HashMessage` over any range, with any hash, records nothing: `SolutionCount` and
`Solutions` are unchanged. -/
theorem HashMessage_zero_target (L : Layout) (K : List uint8_t → byte32_t)
    (inst : Instance) (proc : Processor)
    (hT : ∀ i, i < 32 → inst.Target i = 0) :
    (∀ d : byte32_t, IslessThan d inst.Target = false) ∧
    (HashMessage L K inst proc).SolutionCount = inst.SolutionCount ∧
    (HashMessage L K inst proc).Solutions = inst.Solutions := by
  have hz : beValue inst.Target = 0 := beValue_target_zero inst.Target hT
  have e : HashMessage L K inst proc = inst := by
    rw [HashMessage_eq_scan]
    apply scan_none
    intro n _
    simp [qualifies, hz]
  refine ⟨fun d => ?_, by rw [e], by rw [e]⟩
  rw [IslessThan_eq_decide, hz]
  simp

/-- C9 at a concrete input: the zero target, an all-zero digest, the range `[0, 5)`. -/
theorem HashMessage_zero_target_witness :
    (∀ i, i < 32 → (sampleInstance (allBytes 0) 0 2).Target i = 0) ∧
    (HashMessage sampleLayout (constHash (allBytes 0)) (sampleInstance (allBytes 0) 0 2)
        { WorkPosition := 0, WorkSize := 5 }).SolutionCount
      = (sampleInstance (allBytes 0) 0 2).SolutionCount :=
  ⟨fun _ _ => rfl,
    (HashMessage_zero_target sampleLayout (constHash (allBytes 0))
      (sampleInstance (allBytes 0) 0 2) { WorkPosition := 0, WorkSize := 5 }
      (fun _ _ => rfl)).2.1⟩

/-! ## Midstate mode against full-hash mode -/

theorem scan_congr (q1 q2 : Nat → Bool) (m : Nat) (l : List Nat) (inst : Instance)
    (h : ∀ n, n ∈ l → q1 n = q2 n) :
    l.foldl (recordStep q1 m) inst = l.foldl (recordStep q2 m) inst := by
  induction l generalizing inst with
  | nil => rfl
  | cons a l ih =>
    have ha : recordStep q1 m inst a = recordStep q2 m inst a := by
      simp only [recordStep, h a (List.mem_cons_self a l)]
    rw [List.foldl_cons, List.foldl_cons, ha]
    exact ih _ (fun n hn => h n (List.mem_cons_of_mem a hn))

theorem sha3_midstate_step (resume : (Nat → Nat) → Nat → byte32_t) (ms : Nat → Nat)
    (ht m n : Nat) (inst : Instance) :
    { inst with
      SolutionCount := (sha3_midstate resume ms ht n m (inst.SolutionCount, inst.Solutions)).1
      Solutions := (sha3_midstate resume ms ht n m (inst.SolutionCount, inst.Solutions)).2 }
      = recordStep (fun n => decide (high64 (resume ms n) ≤ ht)) m inst n := by
  unfold sha3_midstate recordStep
  simp only [decide_eq_true_eq]
  split_ifs <;> rfl

/-- The call `HashMidState` over the modelled callee is the recording rule folded over the scanned
nonces, gated by the truncated comparison. -/
theorem HashMidState_eq_scan (L : Layout) (resume : (Nat → Nat) → Nat → byte32_t)
    (inst : Instance) (proc : Processor) :
    HashMidState L (sha3_midstate resume) inst proc
      = (List.range' proc.WorkPosition
          ((proc.WorkPosition + proc.WorkSize) % UINT64_RANGE - proc.WorkPosition)).foldl
          (recordStep
            (fun n => decide (high64 (resume
              (memcpy (fun _ => 0) 0 inst.MidState (L.SPONGE_LENGTH / UINT64_LENGTH)) n)
              ≤ inst.High64Target))
            inst.MaxSolutionCount) inst := by
  unfold HashMidState
  simp only []
  rw [forUInt64_eq_foldl, Nat.mod_mod]
  congr 1
  funext s j
  exact sha3_midstate_step resume _ _ _ j s

/-- C7, as stated, fails: the template hashes to the digest `2 ^ 192` for every nonce in
both modes, `Target` is `2 ^ 192` and `High64Target` its high 64 bits, `1`.  Over the
range `[0, 1)` with capacity `1`, `HashMessage` records nothing (the digest is not below
the target) while `HashMidState` records nonce `0` (the high 64 bits of the digest are at
the truncated target). -/
theorem HashMidState_differs_from_HashMessage :
    high64 highOne = 1 ∧
    (HashMessage sampleLayout (constHash highOne)
        { sampleInstance highOne 0 1 with High64Target := 1 }
        { WorkPosition := 0, WorkSize := 1 }).SolutionCount = 0 ∧
    (HashMidState sampleLayout (sha3_midstate (fun _ _ => highOne))
        { sampleInstance highOne 0 1 with High64Target := 1 }
        { WorkPosition := 0, WorkSize := 1 }).SolutionCount = 1 := by
  have h64 : high64 highOne = 1 := by
    simp [high64, highOne, Finset.sum_range_succ]
  refine ⟨h64, ?_, ?_⟩
  · rw [HashMessage_eq_scan, scan_none]
    · rfl
    · intro n _
      simp [qualifies, digestOf, constHash, sampleInstance]
  · rw [HashMidState_eq_scan]
    have hr : (0 + 1) % UINT64_RANGE - 0 = 1 := by simp [UINT64_RANGE]
    simp only [hr, List.range'_one, List.foldl_cons, List.foldl_nil, recordStep, h64]
    simp [sampleInstance]

/-- C7, amended. For a descriptor whose midstate resumes, for every nonce of the range, to
the digest that full-hash mode computes, and for which the truncated test (high 64 bits of
the digest at or below `High64Target`) accepts a nonce of the range exactly when its digest
is below `Target`, `HashMidState` and `HashMessage` leave the same descriptor: the same
`SolutionCount` and the same `Solutions`, in the same order. -/
theorem HashMidState_eq_HashMessage (L : Layout) (K : List uint8_t → byte32_t)
    (resume : (Nat → Nat) → Nat → byte32_t) (inst : Instance) (proc : Processor)
    (hmid : ∀ n, proc.WorkPosition ≤ n → n < proc.WorkPosition + proc.WorkSize →
      resume (memcpy (fun _ => 0) 0 inst.MidState (L.SPONGE_LENGTH / UINT64_LENGTH)) n
        = digestOf L K inst n)
    (hgate : ∀ n, proc.WorkPosition ≤ n → n < proc.WorkPosition + proc.WorkSize →
      (high64 (digestOf L K inst n) ≤ inst.High64Target
        ↔ beValue (digestOf L K inst n) < beValue inst.Target)) :
    (HashMidState L (sha3_midstate resume) inst proc).SolutionCount
        = (HashMessage L K inst proc).SolutionCount ∧
    (HashMidState L (sha3_midstate resume) inst proc).Solutions
        = (HashMessage L K inst proc).Solutions := by
  have e : HashMidState L (sha3_midstate resume) inst proc = HashMessage L K inst proc := by
    rw [HashMidState_eq_scan, HashMessage_eq_scan]
    apply scan_congr
    intro n hn
    rw [List.mem_range'_1] at hn
    have hle : (proc.WorkPosition + proc.WorkSize) % UINT64_RANGE
        ≤ proc.WorkPosition + proc.WorkSize := Nat.mod_le _ _
    have h1 : proc.WorkPosition ≤ n := hn.1
    have h2 : n < proc.WorkPosition + proc.WorkSize := by omega
    simp only [qualifies, hmid n h1 h2]
    exact decide_eq_decide.mpr (hgate n h1 h2)
  rw [e]
  exact ⟨rfl, rfl⟩

/-- The amended C7 at a concrete input: an all-zero digest in both modes, the all-`0xFF`
target with truncated target `2 ^ 64 - 1`, the range `[0, 3)`. -/
theorem HashMidState_eq_HashMessage_witness :
    (HashMidState sampleLayout (sha3_midstate (fun _ _ => allBytes 0))
        { sampleInstance (allBytes 255) 0 2 with High64Target := 2 ^ 64 - 1 }
        { WorkPosition := 0, WorkSize := 3 }).SolutionCount
      = (HashMessage sampleLayout (constHash (allBytes 0))
        { sampleInstance (allBytes 255) 0 2 with High64Target := 2 ^ 64 - 1 }
        { WorkPosition := 0, WorkSize := 3 }).SolutionCount :=
  (HashMidState_eq_HashMessage sampleLayout (constHash (allBytes 0))
    (fun _ _ => allBytes 0)
    { sampleInstance (allBytes 255) 0 2 with High64Target := 2 ^ 64 - 1 }
    { WorkPosition := 0, WorkSize := 3 }
    (fun _ _ _ => rfl)
    (fun n _ _ => by
      have h1 : high64 (allBytes 0) = 0 := by simp [high64, allBytes]
      have h2 : beValue (allBytes 0) < beValue (allBytes 255) := by
        rw [beValue_allBytes_zero]
        simp [beValue, allBytes, Finset.sum_range_succ]
        decide
      simp only [digestOf, constHash, sampleInstance, h1]
      exact ⟨fun _ => h2, fun _ => Nat.zero_le _⟩)).1

/-! ## Frame properties of `HashMessage` -/

theorem recordStep_frame (q : Nat → Bool) (m : Nat) (inst : Instance) (n : Nat) :
    (recordStep q m inst n).Message = inst.Message ∧
    (recordStep q m inst n).Target = inst.Target ∧
    (recordStep q m inst n).SolutionTemplate = inst.SolutionTemplate ∧
    (recordStep q m inst n).MidState = inst.MidState ∧
    (recordStep q m inst n).High64Target = inst.High64Target ∧
    (recordStep q m inst n).MaxSolutionCount = inst.MaxSolutionCount := by
  unfold recordStep
  split_ifs <;> exact ⟨rfl, rfl, rfl, rfl, rfl, rfl⟩

theorem scan_frame (q : Nat → Bool) (m : Nat) (l : List Nat) (inst : Instance) :
    (l.foldl (recordStep q m) inst).Message = inst.Message ∧
    (l.foldl (recordStep q m) inst).Target = inst.Target ∧
    (l.foldl (recordStep q m) inst).SolutionTemplate = inst.SolutionTemplate ∧
    (l.foldl (recordStep q m) inst).MidState = inst.MidState ∧
    (l.foldl (recordStep q m) inst).High64Target = inst.High64Target ∧
    (l.foldl (recordStep q m) inst).MaxSolutionCount = inst.MaxSolutionCount := by
  induction l generalizing inst with
  | nil => exact ⟨rfl, rfl, rfl, rfl, rfl, rfl⟩
  | cons a l ih =>
    rw [List.foldl_cons]
    obtain ⟨h1, h2, h3, h4, h5, h6⟩ := ih (recordStep q m inst a)
    obtain ⟨g1, g2, g3, g4, g5, g6⟩ := recordStep_frame q m inst a
    exact ⟨h1.trans g1, h2.trans g2, h3.trans g3, h4.trans g4, h5.trans g5, h6.trans g6⟩

/-- The nonces the loop visits lie in `[p, p + k)`, whether or not the end position wraps. -/
theorem mem_scanned_range (p k n : Nat)
    (h : n ∈ List.range' p ((p + k) % UINT64_RANGE - p)) :
    p ≤ n ∧ n < p + k ∧ n < UINT64_RANGE := by
  rw [List.mem_range'_1] at h
  have hle : (p + k) % UINT64_RANGE ≤ p + k := Nat.mod_le _ _
  have hlt : (p + k) % UINT64_RANGE < UINT64_RANGE := Nat.mod_lt _ (by decide)
  omega

/-- C11. `HashMessage` never mutates the shared templates: for every descriptor and work
assignment, `Message`, `Target`, `SolutionTemplate` and `MaxSolutionCount` (and `MidState`
and `High64Target`) are the same after the call as before, byte for byte; only
`Solutions` and `SolutionCount` may differ. -/
theorem HashMessage_templates_unchanged (L : Layout) (K : List uint8_t → byte32_t)
    (inst : Instance) (proc : Processor) :
    (HashMessage L K inst proc).Message = inst.Message ∧
    (HashMessage L K inst proc).Target = inst.Target ∧
    (HashMessage L K inst proc).SolutionTemplate = inst.SolutionTemplate ∧
    (HashMessage L K inst proc).MaxSolutionCount = inst.MaxSolutionCount ∧
    (HashMessage L K inst proc).MidState = inst.MidState ∧
    (HashMessage L K inst proc).High64Target = inst.High64Target := by
  rw [HashMessage_eq_scan]
  obtain ⟨h1, h2, h3, h4, h5, h6⟩ := scan_frame (qualifies L K inst) inst.MaxSolutionCount
    (List.range' proc.WorkPosition
      ((proc.WorkPosition + proc.WorkSize) % UINT64_RANGE - proc.WorkPosition)) inst
  exact ⟨h1, h2, h3, h6, h4, h5⟩

/-- C12. No side effect for non-qualifying nonces: if no 64-bit nonce of the assigned range
`[p, p + k)` has a digest below `Target`, `HashMessage` returns with `SolutionCount` and
every entry of `Solutions` unchanged. -/
theorem HashMessage_no_qualifying_unchanged (L : Layout) (K : List uint8_t → byte32_t)
    (inst : Instance) (proc : Processor)
    (h : ∀ n, proc.WorkPosition ≤ n → n < proc.WorkPosition + proc.WorkSize →
          n < UINT64_RANGE → ¬ beValue (digestOf L K inst n) < beValue inst.Target) :
    (HashMessage L K inst proc).SolutionCount = inst.SolutionCount ∧
    (HashMessage L K inst proc).Solutions = inst.Solutions := by
  have e : HashMessage L K inst proc = inst := by
    rw [HashMessage_eq_scan]
    apply scan_none
    intro n hn
    obtain ⟨h1, h2, h3⟩ := mem_scanned_range _ _ _ hn
    simp [qualifies, h n h1 h2 h3]
  rw [e]
  exact ⟨rfl, rfl⟩

/-- C12 at a concrete input: digest and target both `2 ^ 192`, so no nonce of `[0, 5)`
qualifies. -/
theorem HashMessage_no_qualifying_unchanged_witness :
    (HashMessage sampleLayout (constHash highOne) (sampleInstance highOne 0 2)
        { WorkPosition := 0, WorkSize := 5 }).SolutionCount
      = (sampleInstance highOne 0 2).SolutionCount :=
  (HashMessage_no_qualifying_unchanged sampleLayout (constHash highOne)
    (sampleInstance highOne 0 2) { WorkPosition := 0, WorkSize := 5 }
    (fun _ _ _ _ => by simp [digestOf, constHash, sampleInstance])).1

/-- C13. An empty range records nothing: for every descriptor and every `WorkPosition`,
`HashMessage` with `WorkSize = 0` leaves `SolutionCount` and `Solutions` unchanged, and its
loop returns the state it was entered with (the body runs zero times). -/
theorem HashMessage_empty_range (L : Layout) (K : List uint8_t → byte32_t)
    (inst : Instance) (p : Nat) :
    (HashMessage L K inst { WorkPosition := p, WorkSize := 0 }).SolutionCount
        = inst.SolutionCount ∧
    (HashMessage L K inst { WorkPosition := p, WorkSize := 0 }).Solutions = inst.Solutions ∧
    ∀ (currentTarget : byte32_t) (st : HashMessageState),
      forUInt64 ((p + 0) % UINT64_RANGE)
        (HashMessage.body L K currentTarget inst.MaxSolutionCount) p st = st := by
  have hz : (p + 0) % UINT64_RANGE - p = 0 :=
    Nat.sub_eq_zero_of_le (Nat.mod_le _ _)
  have e : HashMessage L K inst { WorkPosition := p, WorkSize := 0 } = inst := by
    rw [HashMessage_eq_scan]
    simp only [hz]
    rfl
  refine ⟨by rw [e], by rw [e], fun ct st => ?_⟩
  rw [forUInt64_eq_foldl, Nat.mod_mod, hz]
  rfl

/-- C14. `Solutions` is append-only and bounded under `HashMessage`: for a descriptor with
`SolutionCount = c ≤ MaxSolutionCount = m` and every work assignment, the final
`SolutionCount` is at least `c`, every entry below index `c` is unchanged, every entry at
an index `≥ m` is unchanged, and no loop iteration, from any state, alters an entry at an
index `≥ m`. -/
theorem HashMessage_append_only (L : Layout) (K : List uint8_t → byte32_t)
    (inst : Instance) (proc : Processor)
    (h : inst.SolutionCount ≤ inst.MaxSolutionCount) :
    inst.SolutionCount ≤ (HashMessage L K inst proc).SolutionCount ∧
    (∀ j, j < inst.SolutionCount →
        (HashMessage L K inst proc).Solutions j = inst.Solutions j) ∧
    (∀ j, inst.MaxSolutionCount ≤ j →
        (HashMessage L K inst proc).Solutions j = inst.Solutions j) ∧
    (∀ (currentTarget : byte32_t) (i : Nat) (st : HashMessageState) (j : Nat),
        inst.MaxSolutionCount ≤ j →
        (HashMessage.body L K currentTarget inst.MaxSolutionCount i st).deviceInstance.Solutions j
          = st.deviceInstance.Solutions j) := by
  rw [HashMessage_eq_scan]
  obtain ⟨hc, hs⟩ := scan_spec (qualifies L K inst) inst.MaxSolutionCount
    (List.range' proc.WorkPosition
      ((proc.WorkPosition + proc.WorkSize) % UINT64_RANGE - proc.WorkPosition)) inst h
  refine ⟨by rw [hc]; omega, fun j hj => ?_, fun j hj => ?_, fun ct i st j hj => ?_⟩
  · rw [hs j, if_neg (by omega)]
  · rw [hs j, if_neg (by omega)]
  · unfold HashMessage.body
    simp only []
    split_ifs with h1 h2
    · have : j ≠ st.deviceInstance.SolutionCount := by omega
      simp [this]
    · rfl
    · rfl

/-- C14 at a concrete input: one entry held, capacity `2`, every nonce of `[0, 5)`
qualifying. -/
theorem HashMessage_append_only_witness :
    (sampleInstance (allBytes 255) 1 2).SolutionCount
        ≤ (sampleInstance (allBytes 255) 1 2).MaxSolutionCount ∧
    (sampleInstance (allBytes 255) 1 2).SolutionCount
      ≤ (HashMessage sampleLayout (constHash (allBytes 0)) (sampleInstance (allBytes 255) 1 2)
          { WorkPosition := 0, WorkSize := 5 }).SolutionCount :=
  ⟨by simp [sampleInstance],
    (HashMessage_append_only sampleLayout (constHash (allBytes 0))
      (sampleInstance (allBytes 255) 1 2) { WorkPosition := 0, WorkSize := 5 }
      (by simp [sampleInstance])).1⟩

/-! ## The comparator as a lexicographic compare -/

theorem IslessThan_loop_skip (a b : byte32_t) (d k i : Nat) (hd : k + d = i) (hi : i ≤ 32)
    (heq : ∀ j, k ≤ j → j < i → a j = b j) :
    IslessThan.loop a b k = IslessThan.loop a b i := by
  induction d generalizing k with
  | zero =>
    have : k = i := by omega
    rw [this]
  | succ d ih =>
    have hk : k < UINT256_LENGTH := by simp only [UINT256_LENGTH]; omega
    have hmod : (k + 1) % 2 ^ 32 = k + 1 := Nat.mod_eq_of_lt (by omega)
    have hab : a k = b k := heq k (le_refl k) (by omega)
    rw [IslessThan.loop]
    simp only [hk, if_true, hab, lt_irrefl, if_false, gt_iff_lt, hmod]
    exact ih (k + 1) (by omega) (fun j h1 h2 => heq j (by omega) h2)

theorem IslessThan_loop_at (a b : byte32_t) (i : Nat) (hi : i < 32) (hne : a i ≠ b i) :
    IslessThan.loop a b i = decide (a i < b i) := by
  have hk : i < UINT256_LENGTH := hi
  rw [IslessThan.loop]
  simp only [hk, if_true, gt_iff_lt]
  by_cases h1 : a i < b i
  · simp [h1]
  · have h2 : b i < a i := lt_of_le_of_ne (not_lt.mp h1) (Ne.symm hne)
    simp [h1, h2]

/-- C15. `IslessThan` is the big-endian lexicographic compare: if `i` is the first index
in `0..31` with `a[i] ≠ b[i]`, the result is `a[i] < b[i]`; if the arrays agree at every
index, the result is false. -/
theorem IslessThan_lexicographic (a b : byte32_t) :
    (∀ i, i < 32 → (∀ j, j < i → a j = b j) → a i ≠ b i →
        IslessThan a b = decide (a i < b i)) ∧
    ((∀ j, j < 32 → a j = b j) → IslessThan a b = false) := by
  constructor
  · intro i hi hpre hne
    unfold IslessThan
    rw [IslessThan_loop_skip a b i 0 i (by omega) (le_of_lt hi) (fun j _ h2 => hpre j h2)]
    exact IslessThan_loop_at a b i hi hne
  · intro hall
    rw [IslessThan_eq_decide, beValue_congr a b hall]
    simp

/-! ## Splitting a range, raising the target -/

theorem qualifies_congr (L : Layout) (K : List uint8_t → byte32_t) (inst inst2 : Instance)
    (hM : inst2.Message = inst.Message) (hS : inst2.SolutionTemplate = inst.SolutionTemplate)
    (hT : inst2.Target = inst.Target) :
    qualifies L K inst2 = qualifies L K inst := by
  funext n
  simp only [qualifies, digestOf, candidateMessage, candidateSolution, hM, hS, hT]

/-- C19. Range splitting: for every `p`, `k1`, `k2` with `p + k1 + k2 < 2 ^ 64` and every
descriptor, `HashMessage` on `[p, p + k1)` followed by `HashMessage` on
`[p + k1, p + k1 + k2)` leaves the same `SolutionCount` and `Solutions` (the same
descriptor) as one `HashMessage` on `[p, p + k1 + k2)`. -/
theorem HashMessage_range_split (L : Layout) (K : List uint8_t → byte32_t)
    (inst : Instance) (p k1 k2 : Nat) (h : p + k1 + k2 < UINT64_RANGE) :
    (HashMessage L K (HashMessage L K inst { WorkPosition := p, WorkSize := k1 })
        { WorkPosition := p + k1, WorkSize := k2 }).SolutionCount
      = (HashMessage L K inst { WorkPosition := p, WorkSize := k1 + k2 }).SolutionCount ∧
    (HashMessage L K (HashMessage L K inst { WorkPosition := p, WorkSize := k1 })
        { WorkPosition := p + k1, WorkSize := k2 }).Solutions
      = (HashMessage L K inst { WorkPosition := p, WorkSize := k1 + k2 }).Solutions ∧
    HashMessage L K (HashMessage L K inst { WorkPosition := p, WorkSize := k1 })
        { WorkPosition := p + k1, WorkSize := k2 }
      = HashMessage L K inst { WorkPosition := p, WorkSize := k1 + k2 } := by
  have e : HashMessage L K (HashMessage L K inst { WorkPosition := p, WorkSize := k1 })
        { WorkPosition := p + k1, WorkSize := k2 }
      = HashMessage L K inst { WorkPosition := p, WorkSize := k1 + k2 } := by
    have e1 : HashMessage L K inst { WorkPosition := p, WorkSize := k1 }
        = (List.range' p k1).foldl (recordStep (qualifies L K inst) inst.MaxSolutionCount) inst :=
      HashMessage_eq_scan_range L K inst { WorkPosition := p, WorkSize := k1 }
        (show p + k1 < UINT64_RANGE by omega)
    obtain ⟨f1, f2, f3, _, _, f6⟩ := scan_frame (qualifies L K inst) inst.MaxSolutionCount
      (List.range' p k1) inst
    rw [HashMessage_eq_scan_range L K _ { WorkPosition := p + k1, WorkSize := k2 }
        (show p + k1 + k2 < UINT64_RANGE from h),
      HashMessage_eq_scan_range L K inst { WorkPosition := p, WorkSize := k1 + k2 }
        (show p + (k1 + k2) < UINT64_RANGE by omega),
      e1, qualifies_congr L K inst _ f1 f3 f2, f6]
    simp only []
    rw [← List.foldl_append, List.range'_append_1, Nat.add_comm k2 k1]
  rw [e]
  exact ⟨rfl, rfl, rfl⟩

/-- C19 at a concrete input: `[0, 2)` followed by `[2, 5)` against `[0, 5)`. -/
theorem HashMessage_range_split_witness :
    0 + 2 + 3 < UINT64_RANGE ∧
    (HashMessage sampleLayout (constHash (allBytes 0))
        (HashMessage sampleLayout (constHash (allBytes 0)) (sampleInstance (allBytes 255) 0 4)
          { WorkPosition := 0, WorkSize := 2 })
        { WorkPosition := 0 + 2, WorkSize := 3 }).SolutionCount
      = (HashMessage sampleLayout (constHash (allBytes 0)) (sampleInstance (allBytes 255) 0 4)
          { WorkPosition := 0, WorkSize := 2 + 3 }).SolutionCount :=
  ⟨by simp [UINT64_RANGE],
    (HashMessage_range_split sampleLayout (constHash (allBytes 0))
      (sampleInstance (allBytes 255) 0 4) 0 2 3 (by simp [UINT64_RANGE])).1⟩

theorem scan_recorded_iff (q : Nat → Bool) (m : Nat) (l : List Nat) (inst : Instance)
    (h0 : inst.SolutionCount = 0) (hcap : (l.filter q).length ≤ m) (n : Nat) :
    (∃ j, j < (l.foldl (recordStep q m) inst).SolutionCount ∧
        (l.foldl (recordStep q m) inst).Solutions j = n) ↔ n ∈ l.filter q := by
  obtain ⟨hc, hs⟩ := scan_spec q m l inst (by omega)
  rw [h0, Nat.zero_add, Nat.min_eq_left hcap] at hc
  have hs2 : ∀ j, j < (l.filter q).length →
      (l.foldl (recordStep q m) inst).Solutions j = (l.filter q)[j]?.getD 0 := by
    intro j hj
    rw [hs j, h0, Nat.zero_add, Nat.min_eq_left hcap]
    simp [hj, List.getD_eq_getElem?_getD]
  rw [hc]
  constructor
  · rintro ⟨j, hj, rfl⟩
    rw [hs2 j hj, List.getElem?_eq_getElem hj]
    exact List.getElem_mem _
  · intro hn
    obtain ⟨j, hj, rfl⟩ := List.getElem_of_mem hn
    exact ⟨j, hj, by rw [hs2 j hj, List.getElem?_eq_getElem hj]; rfl⟩

/-- C20. Monotonicity in the target: for two descriptors that differ only in `Target`,
with `t ≤ t2` as big-endian 256-bit integers, `SolutionCount` initially `0` and
`MaxSolutionCount` at least the range size, every nonce `HashMessage` records under target
`t` is also recorded under target `t2`, for the same work assignment. -/
theorem HashMessage_target_monotone (L : Layout) (K : List uint8_t → byte32_t)
    (inst : Instance) (t t2 : byte32_t) (proc : Processor)
    (ht : beValue t ≤ beValue t2)
    (h0 : inst.SolutionCount = 0)
    (hcap : proc.WorkSize ≤ inst.MaxSolutionCount) (n : Nat) :
    (∃ j, j < (HashMessage L K { inst with Target := t } proc).SolutionCount ∧
        (HashMessage L K { inst with Target := t } proc).Solutions j = n) →
    (∃ j, j < (HashMessage L K { inst with Target := t2 } proc).SolutionCount ∧
        (HashMessage L K { inst with Target := t2 } proc).Solutions j = n) := by
  have hlen : ∀ q : Nat → Bool,
      ((List.range' proc.WorkPosition ((proc.WorkPosition + proc.WorkSize) % UINT64_RANGE
          - proc.WorkPosition)).filter q).length ≤ inst.MaxSolutionCount := by
    intro q
    refine le_trans (List.length_filter_le _ _) ?_
    rw [List.length_range']
    have hle : (proc.WorkPosition + proc.WorkSize) % UINT64_RANGE
        ≤ proc.WorkPosition + proc.WorkSize := Nat.mod_le _ _
    omega
  intro hrec
  rw [HashMessage_eq_scan] at hrec ⊢
  have hin := (scan_recorded_iff (qualifies L K { inst with Target := t })
    inst.MaxSolutionCount _ { inst with Target := t } h0 (hlen _) n).mp hrec
  apply (scan_recorded_iff (qualifies L K { inst with Target := t2 })
    inst.MaxSolutionCount _ { inst with Target := t2 } h0 (hlen _) n).mpr
  rw [List.mem_filter] at hin ⊢
  refine ⟨hin.1, ?_⟩
  have hq := hin.2
  simp only [qualifies, digestOf, candidateMessage, candidateSolution,
    decide_eq_true_eq] at hq ⊢
  omega

/-- C20 at a concrete input: targets `2 ^ 192` and all-`0xFF`, an all-zero digest, the
range `[0, 3)`, capacity `4`; nonce `1` is recorded under the lower target, and therefore
under the higher one. -/
theorem HashMessage_target_monotone_witness :
    (beValue highOne ≤ beValue (allBytes 255) ∧
      (sampleInstance highOne 0 4).SolutionCount = 0 ∧
      3 ≤ (sampleInstance highOne 0 4).MaxSolutionCount) ∧
    (∃ j, j < (HashMessage sampleLayout (constHash (allBytes 0))
          { sampleInstance highOne 0 4 with Target := highOne }
          { WorkPosition := 0, WorkSize := 3 }).SolutionCount ∧
        (HashMessage sampleLayout (constHash (allBytes 0))
          { sampleInstance highOne 0 4 with Target := highOne }
          { WorkPosition := 0, WorkSize := 3 }).Solutions j = 1) ∧
    (∃ j, j < (HashMessage sampleLayout (constHash (allBytes 0))
          { sampleInstance highOne 0 4 with Target := allBytes 255 }
          { WorkPosition := 0, WorkSize := 3 }).SolutionCount ∧
        (HashMessage sampleLayout (constHash (allBytes 0))
          { sampleInstance highOne 0 4 with Target := allBytes 255 }
          { WorkPosition := 0, WorkSize := 3 }).Solutions j = 1) := by
  have hle : beValue highOne ≤ beValue (allBytes 255) :=
    le_of_lt (beValue_lt_of_target_max highOne (allBytes 255) (fun _ _ => rfl)
      ⟨0, by decide, by simp [highOne]⟩)
  have hrec : ∃ j, j < (HashMessage sampleLayout (constHash (allBytes 0))
          { sampleInstance highOne 0 4 with Target := highOne }
          { WorkPosition := 0, WorkSize := 3 }).SolutionCount ∧
        (HashMessage sampleLayout (constHash (allBytes 0))
          { sampleInstance highOne 0 4 with Target := highOne }
          { WorkPosition := 0, WorkSize := 3 }).Solutions j = 1 := by
    have hq : ∀ n, qualifies sampleLayout (constHash (allBytes 0))
        { sampleInstance highOne 0 4 with Target := highOne } n = true := by
      intro n
      simp only [qualifies, digestOf, constHash, beValue_allBytes_zero]
      simp [beValue, highOne, Finset.sum_range_succ]
    rw [HashMessage_eq_scan_range _ _ _ _ (by simp [UINT64_RANGE])]
    generalize qualifies sampleLayout (constHash (allBytes 0))
      { sampleInstance highOne 0 4 with Target := highOne } = q at hq
    refine ⟨1, ?_, ?_⟩
    · simp [List.range', recordStep, hq, sampleInstance]
    · simp [List.range', recordStep, hq, sampleInstance]
  exact ⟨⟨hle, rfl, by simp [sampleInstance]⟩, hrec,
    HashMessage_target_monotone sampleLayout (constHash (allBytes 0))
      (sampleInstance highOne 0 4) highOne (allBytes 255)
      { WorkPosition := 0, WorkSize := 3 } hle rfl (by simp [sampleInstance]) 1 hrec⟩

/-! ## The candidate message -/

theorem HashMidState_fold_agree
    (f : (Nat → Nat) → Nat → Nat → Nat → Nat × (Nat → Nat) → Nat × (Nat → Nat))
    (ms : Nat → Nat) (ht m : Nat) (l : List Nat) (a b : Instance)
    (hc : a.SolutionCount = b.SolutionCount) (hs : a.Solutions = b.Solutions) :
    (l.foldl (fun (inst : Instance) j =>
        { inst with
          SolutionCount := (f ms ht j m (inst.SolutionCount, inst.Solutions)).1
          Solutions := (f ms ht j m (inst.SolutionCount, inst.Solutions)).2 }) a).SolutionCount
      = (l.foldl (fun (inst : Instance) j =>
        { inst with
          SolutionCount := (f ms ht j m (inst.SolutionCount, inst.Solutions)).1
          Solutions := (f ms ht j m (inst.SolutionCount, inst.Solutions)).2 }) b).SolutionCount ∧
    (l.foldl (fun (inst : Instance) j =>
        { inst with
          SolutionCount := (f ms ht j m (inst.SolutionCount, inst.Solutions)).1
          Solutions := (f ms ht j m (inst.SolutionCount, inst.Solutions)).2 }) a).Solutions
      = (l.foldl (fun (inst : Instance) j =>
        { inst with
          SolutionCount := (f ms ht j m (inst.SolutionCount, inst.Solutions)).1
          Solutions := (f ms ht j m (inst.SolutionCount, inst.Solutions)).2 }) b).Solutions := by
  induction l generalizing a b with
  | nil => exact ⟨hc, hs⟩
  | cons x l ih =>
    simp only [List.foldl_cons]
    apply ih
    · simp only [hc, hs]
    · simp only [hc, hs]

/-- C17, as stated, fails: with the digest `2 ^ 192` for every nonce, `Target = 2 ^ 192`
and `High64Target = 1`, `HashMidState` over the range `[5, 6)` records nonce `5` although
its digest is not below `Target`. -/
theorem HashMidState_records_without_full_compare :
    (HashMidState sampleLayout (sha3_midstate (fun _ _ => highOne))
        { sampleInstance highOne 0 1 with High64Target := 1 }
        { WorkPosition := 5, WorkSize := 1 }).SolutionCount = 1 ∧
    (HashMidState sampleLayout (sha3_midstate (fun _ _ => highOne))
        { sampleInstance highOne 0 1 with High64Target := 1 }
        { WorkPosition := 5, WorkSize := 1 }).Solutions 0 = 5 ∧
    ¬ beValue highOne < beValue (sampleInstance highOne 0 1).Target := by
  have h64 : high64 highOne = 1 := by
    simp [high64, highOne, Finset.sum_range_succ]
  have hr : (5 + 1) % UINT64_RANGE - 5 = 1 := by simp [UINT64_RANGE]
  rw [HashMidState_eq_scan]
  simp only [hr, List.range'_one, List.foldl_cons, List.foldl_nil, recordStep, h64]
  simp [sampleInstance]

/-- C17, amended. In midstate-reuse mode the truncated comparison alone gates recording:
`HashMidState` hands its callee `High64Target` and never `Target`, so for every callee the
recorded `SolutionCount` and `Solutions` are the same whatever the 256-bit `Target` is; and
under the modelled callee a nonce `n` (with `n + 1 < 2 ^ 64`) whose digest has its high 64
bits at or below `High64Target` is recorded whenever there is room. -/
theorem HashMidState_ignores_target (L : Layout)
    (f : (Nat → Nat) → Nat → Nat → Nat → Nat × (Nat → Nat) → Nat × (Nat → Nat))
    (inst : Instance) (t : byte32_t) (proc : Processor) :
    (HashMidState L f { inst with Target := t } proc).SolutionCount
        = (HashMidState L f inst proc).SolutionCount ∧
    (HashMidState L f { inst with Target := t } proc).Solutions
        = (HashMidState L f inst proc).Solutions ∧
    (∀ (resume : (Nat → Nat) → Nat → byte32_t) (n : Nat),
      n + 1 < UINT64_RANGE →
      inst.SolutionCount < inst.MaxSolutionCount →
      high64 (resume (memcpy (fun _ => 0) 0 inst.MidState
          (L.SPONGE_LENGTH / UINT64_LENGTH)) n) ≤ inst.High64Target →
      (HashMidState L (sha3_midstate resume) { inst with Target := t }
          { WorkPosition := n, WorkSize := 1 }).SolutionCount = inst.SolutionCount + 1 ∧
      (HashMidState L (sha3_midstate resume) { inst with Target := t }
          { WorkPosition := n, WorkSize := 1 }).Solutions inst.SolutionCount = n) := by
  refine ⟨?_, ?_, fun resume n hn hc hg => ?_⟩
  · unfold HashMidState
    simp only []
    rw [forUInt64_eq_foldl, forUInt64_eq_foldl]
    exact (HashMidState_fold_agree f _ _ _ _ { inst with Target := t } inst rfl rfl).1
  · unfold HashMidState
    simp only []
    rw [forUInt64_eq_foldl, forUInt64_eq_foldl]
    exact (HashMidState_fold_agree f _ _ _ _ { inst with Target := t } inst rfl rfl).2
  · have hr : (n + 1) % UINT64_RANGE - n = 1 := by
      rw [Nat.mod_eq_of_lt hn]
      omega
    rw [HashMidState_eq_scan]
    simp only [hr, List.range'_one, List.foldl_cons, List.foldl_nil, recordStep, hg, hc,
      decide_True, if_true]
    simp

/-! ## Interleaved workers -/

/-- An uninterrupted iteration of a worker is the recording rule of `HashMessage` for its
nonce, followed by `++i`. -/
theorem workerIteration_eq_recordStep (q : Nat → Bool) (m : Nat) (w : Worker)
    (inst : Instance) (hpc : w.pc = WorkerPc.loopHead)
    (hlt : w.i < w.endWorkPosition % UINT64_RANGE) :
    workerIteration q m w inst
      = ({ w with i := (w.i + 1) % UINT64_RANGE, pc := WorkerPc.loopHead },
         recordStep q m inst w.i) := by
  obtain ⟨i, e, pc⟩ := w
  simp only at hpc hlt
  subst hpc
  by_cases hq : q i = true
  · by_cases hc : inst.SolutionCount < m
    · simp [workerIteration, workerStep, recordStep, hlt, hq, hc]
    · simp [workerIteration, workerStep, recordStep, hlt, hq, hc]
  · simp [workerIteration, workerStep, recordStep, hlt, hq]

theorem workerIteration_finished (q : Nat → Bool) (m : Nat) (w : Worker)
    (inst : Instance) (hpc : w.pc = WorkerPc.loopHead)
    (hlt : ¬ w.i < w.endWorkPosition % UINT64_RANGE) :
    workerIteration q m w inst = (w, inst) := by
  obtain ⟨i, e, pc⟩ := w
  simp only at hpc hlt
  subst hpc
  simp [workerIteration, workerStep, hlt]

theorem workerIteration_inv (q : Nat → Bool) (m : Nat) (w : Worker) (inst : Instance)
    (hpc : w.pc = WorkerPc.loopHead) (hc : inst.SolutionCount ≤ m) :
    (workerIteration q m w inst).1.pc = WorkerPc.loopHead ∧
    (workerIteration q m w inst).2.SolutionCount ≤ m ∧
    ∀ j, m ≤ j → (workerIteration q m w inst).2.Solutions j = inst.Solutions j := by
  by_cases hlt : w.i < w.endWorkPosition % UINT64_RANGE
  · rw [workerIteration_eq_recordStep q m w inst hpc hlt]
    have h1 := scan_spec q m [w.i] inst hc
    simp only [List.foldl_cons, List.foldl_nil] at h1
    refine ⟨rfl, by rw [h1.1]; exact Nat.min_le_right _ _, fun j hj => ?_⟩
    rw [h1.2 j, if_neg (by omega)]
  · rw [workerIteration_finished q m w inst hpc hlt]
    exact ⟨hpc, hc, fun _ _ => rfl⟩

theorem runSchedule_atomic_inv (q : Nat → Bool) (m : Nat) (inst0 : Instance)
    (schedule : List Nat) (s : List Worker × Instance)
    (hpc : ∀ w, w ∈ s.1 → w.pc = WorkerPc.loopHead)
    (hc : s.2.SolutionCount ≤ m)
    (hs : ∀ j, m ≤ j → s.2.Solutions j = inst0.Solutions j) :
    (runSchedule (workerIteration q m) schedule s.1 s.2).2.SolutionCount ≤ m ∧
    ∀ j, m ≤ j →
      (runSchedule (workerIteration q m) schedule s.1 s.2).2.Solutions j
        = inst0.Solutions j := by
  induction schedule generalizing s with
  | nil => exact ⟨hc, hs⟩
  | cons k ks ih =>
    unfold runSchedule at ih ⊢
    rw [List.foldl_cons]
    cases hk : s.1[k]? with
    | none =>
      simp only [hk]
      exact ih s hpc hc hs
    | some w =>
      simp only [hk]
      obtain ⟨h1, h2, h3⟩ := workerIteration_inv q m w s.2 (hpc w (List.getElem?_mem hk)) hc
      refine ih (s.1.set k (workerIteration q m w s.2).1, (workerIteration q m w s.2).2)
        (fun v hv => ?_) h2 (fun j hj => by rw [h3 j hj, hs j hj])
      rcases List.mem_or_eq_of_mem_set hv with hv2 | hv2
      · exact hpc v hv2
      · rw [hv2]
        exact h1

theorem single_worker_eq_scan (q : Nat → Bool) (m e n i : Nat) (inst : Instance)
    (h : n = e % UINT64_RANGE - i) :
    (runSchedule (workerIteration q m) (List.replicate n 0)
        [{ i := i, endWorkPosition := e, pc := WorkerPc.loopHead }] inst).2
      = (List.range' i n).foldl (recordStep q m) inst := by
  induction n generalizing i inst with
  | zero => rfl
  | succ n ih =>
    have hlt : i < e % UINT64_RANGE := by omega
    have hR : e % UINT64_RANGE < UINT64_RANGE := Nat.mod_lt _ (by decide)
    have hi : (i + 1) % UINT64_RANGE = i + 1 := Nat.mod_eq_of_lt (by omega)
    have hstep := workerIteration_eq_recordStep q m
      { i := i, endWorkPosition := e, pc := WorkerPc.loopHead } inst rfl hlt
    simp only [hi] at hstep
    have ih2 := ih (i + 1) (recordStep q m inst i) (by omega)
    unfold runSchedule at ih2 ⊢
    simp only [List.replicate_succ, List.foldl_cons, List.getElem?_cons_zero, hstep,
      List.set_cons_zero, List.range'_succ]
    exact ih2

/-- A single worker, scheduled iteration by iteration until its loop ends, leaves the
descriptor that `HashMessage` returns. -/
theorem single_worker_eq_HashMessage (L : Layout) (K : List uint8_t → byte32_t)
    (inst : Instance) (proc : Processor) :
    (runSchedule (workerIteration (qualifies L K inst) inst.MaxSolutionCount)
        (List.replicate
          ((proc.WorkPosition + proc.WorkSize) % UINT64_RANGE - proc.WorkPosition) 0)
        [{ i := proc.WorkPosition
           endWorkPosition := (proc.WorkPosition + proc.WorkSize) % UINT64_RANGE
           pc := WorkerPc.loopHead }] inst).2
      = HashMessage L K inst proc := by
  rw [HashMessage_eq_scan]
  exact single_worker_eq_scan _ _ _ _ _ _ (by rw [Nat.mod_mod])

theorem countP_add_one_le_length {α : Type} (p : α → Bool) (l : List α) (k : Nat)
    (h : k < l.length) (hp : p l[k] = false) (a : α) (ha : p a = true) :
    l.countP p + 1 ≤ l.length := by
  have h1 := List.countP_set p l k a h
  have h2 : (l.set k a).countP p ≤ (l.set k a).length := List.countP_le_length p
  rw [List.length_set] at h2
  rw [hp, ha] at h1
  simp at h1
  omega

theorem workerStep_pending (q : Nat → Bool) (m : Nat) (w : Worker) (inst : Instance) :
    ((workerStep q m w inst).2.SolutionCount
        + (if isPending (workerStep q m w inst).1 = true then 1 else 0)
      = inst.SolutionCount + (if isPending w = true then 1 else 0)) ∨
    (isPending w = false ∧ isPending (workerStep q m w inst).1 = true ∧
      (workerStep q m w inst).2.SolutionCount = inst.SolutionCount ∧
      inst.SolutionCount < m) := by
  obtain ⟨i, e, pc⟩ := w
  cases pc with
  | loopHead =>
    by_cases h1 : i < e % UINT64_RANGE
    · by_cases h2 : q i = true
      · by_cases h3 : inst.SolutionCount < m
        · right
          simp [workerStep, isPending, h1, h2, h3]
        · left
          simp [workerStep, isPending, h1, h2, h3]
      · left
        simp [workerStep, isPending, h1, h2]
    · left
      simp [workerStep, isPending, h1]
  | checked =>
    left
    simp [workerStep, isPending]
  | stored =>
    left
    simp [workerStep, isPending]

/-- At statement granularity the count can pass the capacity by at most the number of
other workers: after every schedule, `SolutionCount` plus the number of workers between
check and increment is at most `maxSolutionCount + (number of workers - 1)`. -/
theorem runSchedule_statement_bound (q : Nat → Bool) (m : Nat) (schedule : List Nat)
    (s : List Worker × Instance)
    (h : s.2.SolutionCount + pendingWorkers s.1 ≤ m + (s.1.length - 1)) :
    (runSchedule (workerStep q m) schedule s.1 s.2).2.SolutionCount
        + pendingWorkers (runSchedule (workerStep q m) schedule s.1 s.2).1
      ≤ m + (s.1.length - 1) ∧
    (runSchedule (workerStep q m) schedule s.1 s.2).1.length = s.1.length := by
  induction schedule generalizing s with
  | nil => exact ⟨h, rfl⟩
  | cons k ks ih =>
    unfold runSchedule at ih ⊢
    rw [List.foldl_cons]
    cases hk : s.1[k]? with
    | none =>
      simp only [hk]
      exact ih s h
    | some w =>
      simp only [hk]
      obtain ⟨hlt, hw⟩ := List.getElem?_eq_some_iff.mp hk
      have hset := List.countP_set isPending s.1 k (workerStep q m w s.2).1 hlt
      have hle := List.boole_getElem_le_countP isPending s.1 k hlt
      rw [hw] at hset hle
      have hlen : (s.1.set k (workerStep q m w s.2).1).length = s.1.length :=
        List.length_set _ _ _
      have key : (workerStep q m w s.2).2.SolutionCount
          + pendingWorkers (s.1.set k (workerStep q m w s.2).1) ≤ m + (s.1.length - 1) := by
        unfold pendingWorkers at h ⊢
        rcases workerStep_pending q m w s.2 with hstep | ⟨h1, h2, h3, h4⟩
        · omega
        · have hp : isPending s.1[k] = false := by rw [hw]; exact h1
          have hroom := countP_add_one_le_length isPending s.1 k hlt hp
            { i := 0, endWorkPosition := 0, pc := WorkerPc.checked } rfl
          rw [h1, h2] at hset
          simp at hset
          omega
      have r := ih (s.1.set k (workerStep q m w s.2).1, (workerStep q m w s.2).2)
        (by rw [hlen]; exact key)
      simp only [hlen] at r
      exact r

/-- From workers at their loop heads and a descriptor within capacity, every
statement-level schedule ends with `SolutionCount ≤ maxSolutionCount + (workers - 1)`. -/
theorem workers_statement_bound (q : Nat → Bool) (m : Nat) (schedule : List Nat)
    (workers : List Worker) (inst : Instance)
    (hpc : ∀ w, w ∈ workers → w.pc = WorkerPc.loopHead)
    (hc : inst.SolutionCount ≤ m) :
    (runSchedule (workerStep q m) schedule workers inst).2.SolutionCount
      ≤ m + (workers.length - 1) := by
  have h0 : pendingWorkers workers = 0 := by
    unfold pendingWorkers
    rw [List.countP_eq_zero]
    intro w hw
    simp [isPending, hpc w hw]
  have h := (runSchedule_statement_bound q m schedule (workers, inst)
    (by simp only [h0]; omega)).1
  simp only [] at h
  omega

/-- With the check / store / increment of an iteration run as one step, every schedule
keeps `SolutionCount` within `MaxSolutionCount` and leaves the entries at indices
`≥ MaxSolutionCount` alone: such a run is a sequential run of the recording rule. -/
theorem workers_atomic_within_capacity (q : Nat → Bool) (schedule : List Nat)
    (workers : List Worker) (inst : Instance)
    (hpc : ∀ w, w ∈ workers → w.pc = WorkerPc.loopHead)
    (hc : inst.SolutionCount ≤ inst.MaxSolutionCount) :
    (runSchedule (workerIteration q inst.MaxSolutionCount) schedule workers
        inst).2.SolutionCount ≤ inst.MaxSolutionCount ∧
    ∀ j, inst.MaxSolutionCount ≤ j →
      (runSchedule (workerIteration q inst.MaxSolutionCount) schedule workers
        inst).2.Solutions j = inst.Solutions j :=
  runSchedule_atomic_inv q inst.MaxSolutionCount inst schedule (workers, inst) hpc hc
    (fun _ _ => rfl)

/-- C18. The code breaks the cap under interleaving: with capacity `1` and two workers on
the ranges `[0, 1)` and `[1, 2)`, every nonce qualifying, each statement of lines 100 to
103 taken as one atomic step, the schedule in which both workers pass the check of line
100 before either stores ends with `SolutionCount = 2 > 1 = MaxSolutionCount` and with
nonce `1` written at `Solutions[1]`, an index at `MaxSolutionCount`. -/
theorem workers_race_exceeds_capacity :
    (runSchedule
        (workerStep
          (qualifies sampleLayout (constHash (allBytes 0)) (sampleInstance (allBytes 255) 0 1))
          (sampleInstance (allBytes 255) 0 1).MaxSolutionCount)
        [0, 1, 0, 0, 1, 1]
        [{ i := 0, endWorkPosition := 1, pc := WorkerPc.loopHead },
         { i := 1, endWorkPosition := 2, pc := WorkerPc.loopHead }]
        (sampleInstance (allBytes 255) 0 1)).2.SolutionCount = 2 ∧
    (runSchedule
        (workerStep
          (qualifies sampleLayout (constHash (allBytes 0)) (sampleInstance (allBytes 255) 0 1))
          (sampleInstance (allBytes 255) 0 1).MaxSolutionCount)
        [0, 1, 0, 0, 1, 1]
        [{ i := 0, endWorkPosition := 1, pc := WorkerPc.loopHead },
         { i := 1, endWorkPosition := 2, pc := WorkerPc.loopHead }]
        (sampleInstance (allBytes 255) 0 1)).2.Solutions 1 = 1 ∧
    (sampleInstance (allBytes 255) 0 1).Solutions 1 = 0 ∧
    (sampleInstance (allBytes 255) 0 1).MaxSolutionCount = 1 := by
  have hq := qualifies_zero_digest_max_target sampleLayout 0 1
  generalize qualifies sampleLayout (constHash (allBytes 0))
    (sampleInstance (allBytes 255) 0 1) = q at hq ⊢
  refine ⟨?_, ?_, rfl, rfl⟩
  · simp [runSchedule, workerStep, hq, sampleInstance, UINT64_RANGE]
  · simp [runSchedule, workerStep, hq, sampleInstance, UINT64_RANGE]

end CPUSolver
